import Mathlib

set_option maxHeartbeats 1000000

/-!
Shallow embedding of the octoproc assembler lexer (src/src/lexer.rs).

The Rust code scans a `String` by byte positions produced by `char_indices`.
We model the text as a `List Char` of Unicode scalar values; byte positions
are computed from the UTF-8 width of each character, exactly as Rust `str`
indexing does.  Slicing a string at a byte index that is not a character
boundary (or past the end) panics in Rust; such slices are modelled by
`byteDrop?` returning `Option.none`, and the panic propagates to an
`Option.none` result of `Lexer.next`.
-/

/-- Number of bytes of the UTF-8 encoding of a scalar value, as used by
Rust `char_indices` to advance byte offsets. -/
def utf8Width (c : Char) : Nat :=
  if c.toNat < 128 then 1
  else if c.toNat < 2048 then 2
  else if c.toNat < 65536 then 3
  else 4

/-- Byte length of a text, Rust `str::len`. -/
def byteLen (s : List Char) : Nat :=
  (s.map utf8Width).sum

/-- Rust `&s[n..]`: drop the first `n` bytes.  `Option.none` models the Rust
panic when `n` is not a character boundary or exceeds the length. -/
def byteDrop? (s : List Char) (n : Nat) : Option (List Char) :=
  if n = 0 then some s
  else
    match s with
    | [] => Option.none
    | c :: s' => if utf8Width c ≤ n then byteDrop? s' (n - utf8Width c) else Option.none

/-- Rust `&s[0..n]`: take the first `n` bytes.  Every use below has `n` a
character boundary within bounds (the index always comes from
`char_indices` of the same slice), where this total function agrees with
Rust; off a boundary it truncates instead of panicking. -/
def byteTakeD (s : List Char) (n : Nat) : List Char :=
  match s with
  | [] => []
  | c :: s' => if utf8Width c ≤ n then c :: byteTakeD s' (n - utf8Width c) else []

/-- Rust `str::char_indices` over a slice: each character paired with its
byte offset from the start of the slice, offsets starting at `i`. -/
def charIndicesA : Nat → List Char → List (Nat × Char)
  | _, [] => []
  | i, c :: s => (i, c) :: charIndicesA (i + utf8Width c) s

def charIndices (s : List Char) : List (Nat × Char) :=
  charIndicesA 0 s

/-- `TokenValue` from lexer.rs.  `U9`/`U12` hold the numeric value (the
`u9`/`u12` domain types live outside this crate and are plain bounded
integers). -/
inductive TokenValue where
  | None
  | Err (msg : List Char)
  | LParen
  | RParen
  | Colon
  | Comma
  | Newline
  | LT
  | GT
  | Dot
  | Symbol (s : List Char)
  | U9 (v : Nat)
  | U12 (v : Nat)
  | String (s : List Char)
deriving DecidableEq

/-- `Token` from lexer.rs. -/
structure Token where
  pos : Nat
  lino : Nat
  charpos : Nat
  value : TokenValue
deriving DecidableEq

/-- `LexerState` from lexer.rs. -/
structure LexerState where
  pos : Nat
  lino : Nat
  charpos : Nat
deriving DecidableEq

/-- `Lexer` from lexer.rs. -/
structure Lexer where
  filename : List Char
  state : LexerState
  string : List Char
deriving DecidableEq

/-- `Lexer::new`: appends the sentinel trailing space. -/
def Lexer.new (filename : List Char) (string : List Char) : Lexer :=
  { filename := filename
    state := { pos := 0, lino := 1, charpos := 0 }
    string := string ++ [' '] }

/-- `Lexer::eof`. -/
def Lexer.eof (l : Lexer) : Bool :=
  decide (byteLen l.string ≤ l.state.pos)

/-- `Lexer::get_lino`. -/
def Lexer.get_lino (l : Lexer) : Nat :=
  l.state.lino

/-- `Lexer::get_filename`. -/
def Lexer.get_filename (l : Lexer) : List Char :=
  l.filename

/-- `Lexer::save`. -/
def Lexer.save (l : Lexer) : LexerState :=
  l.state

/-- `Lexer::recall`. -/
def Lexer.recall (l : Lexer) (st : LexerState) : Lexer :=
  { l with state := st }

/-- The body of the `for` loop of `Lexer::skip_whitespace`, iterating over
the `char_indices` of the slice taken at entry while mutating the state.
The byte index of each character is not consulted by the source: each
consumed character advances `pos` by exactly one byte. -/
def skipWsLoop : List (Nat × Char) → LexerState → Bool → LexerState
  | [], st, _ => st
  | (_, c) :: rest, st, inComment =>
    if inComment = true ∧ c = '\n' then
      skipWsLoop rest { st with pos := st.pos + 1, charpos := 0, lino := st.lino + 1 } false
    else if c = ' ' ∨ c = '\t' ∨ inComment = true then
      skipWsLoop rest { st with pos := st.pos + 1, charpos := st.charpos + 1 } inComment
    else if c = ';' then
      skipWsLoop rest { st with pos := st.pos + 1, charpos := st.charpos + 1 } true
    else
      st

/-- `Lexer::skip_whitespace`. -/
def Lexer.skip_whitespace (l : Lexer) : Option Lexer :=
  match byteDrop? l.string l.state.pos with
  | Option.none => Option.none
  | some cs => some { l with state := skipWsLoop (charIndices cs) l.state false }

/-- Character class of symbol starters (line 189 of lexer.rs). -/
def isSymbolStart (c : Char) : Bool :=
  decide (('a' ≤ c ∧ c ≤ 'z') ∨ ('A' ≤ c ∧ c ≤ 'Z') ∨ c = '_')

/-- Character class continuing a symbol (line 204 of lexer.rs). -/
def isSymbolChar (c : Char) : Bool :=
  decide (('a' ≤ c ∧ c ≤ 'z') ∨ ('A' ≤ c ∧ c ≤ 'Z') ∨ ('0' ≤ c ∧ c ≤ '9') ∨ c = '_')

/-- Octal digit (lines 194 and 216 of lexer.rs). -/
def isOctalDigit (c : Char) : Bool :=
  decide ('0' ≤ c ∧ c ≤ '7')

/-- Base-8 value of a digit run. -/
def octalVal (ds : List Char) : Nat :=
  ds.foldl (fun a c => a * 8 + (c.toNat - 48)) 0

/-- `u16::from_str_radix(s, 8)`: fails on an empty string, a non-octal
digit, or overflow past `u16::MAX`. -/
def fromStrRadix8 (s : List Char) : Option Nat :=
  if s = [] then Option.none
  else if s.all isOctalDigit then
    if octalVal s < 65536 then some (octalVal s) else Option.none
  else Option.none

def squote : Char := Char.ofNat 39

/-- The message of line 159: `Invalid token <char>` with the offending text
between single quotes. -/
def invalidTokenMsg (s : List Char) : List Char :=
  "Invalid token ".toList ++ [squote] ++ s ++ [squote]

/-- The message of line 227: the digit run between single quotes followed by
` is an invalid 12 bit integer`. -/
def invalid12Msg (s : List Char) : List Char :=
  [squote] ++ s ++ [squote] ++ " is an invalid 12 bit integer".toList

/-- Finalisation of an octal literal (lines 217-231 of lexer.rs): parse the
consumed span in base 8 and pick the width by magnitude. -/
def finishLiteral (span : List Char) : TokenValue :=
  match fromStrRadix8 span with
  | some n =>
    if n < 512 then TokenValue.U9 n
    else if n < 4096 then TokenValue.U12 n
    else TokenValue.Err (invalid12Msg span)
  | Option.none => TokenValue.Err (invalid12Msg span)

/-- First-character classification of the `TokenValue::None` arm
(lines 167-200 of lexer.rs), without the newline state update. -/
def classify (c : Char) : TokenValue :=
  if c = '(' then TokenValue.LParen
  else if c = ')' then TokenValue.RParen
  else if c = ':' then TokenValue.Colon
  else if c = ',' then TokenValue.Comma
  else if c = '\n' then TokenValue.Newline
  else if c = '<' then TokenValue.LT
  else if c = '>' then TokenValue.GT
  else if c = '.' then TokenValue.Dot
  else if isSymbolStart c then TokenValue.Symbol []
  else if isOctalDigit c then TokenValue.U12 0
  else if c = '"' then TokenValue.String []
  else TokenValue.None

/-- Lines 261-264 of lexer.rs: after a non-breaking iteration the column
advances unless the token value is `Newline`. -/
def postStep (st : LexerState) (v : TokenValue) : LexerState :=
  if v = TokenValue.Newline then st else { st with charpos := st.charpos + 1 }

/-- `pos += i` at a `break`. -/
def advance (st : LexerState) (i : Nat) : LexerState :=
  { st with pos := st.pos + i }

/-- The `for` loop of `Iterator::next` (lines 153-265 of lexer.rs): `cs0` is
the slice taken at entry, the list argument its remaining `char_indices`,
and the `TokenValue` the in-progress `token.value`.  Returns the final
`token.value` together with the final mutable state. -/
def nextLoop (cs0 : List Char) : List (Nat × Char) → LexerState → TokenValue → TokenValue × LexerState
  | [], st, v => (v, st)
  | (i, c) :: rest, st, v =>
    match v with
    | TokenValue.None =>
      if i ≠ 0 then
        (TokenValue.Err (invalidTokenMsg (byteTakeD cs0 i)), advance st i)
      else
        let v1 := classify c
        let st1 := if c = '\n' then { st with charpos := 0, lino := st.lino + 1 } else st
        nextLoop cs0 rest (postStep st1 v1) v1
    | TokenValue.Symbol s =>
      if isSymbolChar c then
        nextLoop cs0 rest (postStep st (TokenValue.Symbol s)) (TokenValue.Symbol s)
      else
        (TokenValue.Symbol (s ++ byteTakeD cs0 i), advance st i)
    | TokenValue.U12 v0 =>
      if isOctalDigit c then
        nextLoop cs0 rest (postStep st (TokenValue.U12 v0)) (TokenValue.U12 v0)
      else
        (finishLiteral (byteTakeD cs0 i), advance st i)
    | TokenValue.String s =>
      if c = '"' then
        (TokenValue.String s, advance st (i + 1))
      else if i = byteLen cs0 - 1 then
        (TokenValue.Err (byteTakeD cs0 i), advance st i)
      else
        nextLoop cs0 rest (postStep st (TokenValue.String (s ++ [c]))) (TokenValue.String (s ++ [c]))
    | v' => (v', advance st i)

/-- `Iterator::next for Lexer`.  The outer `Option.none` models a panic
(non-boundary slice), `some (Option.none, _)` the exhaustion `None` return,
and `some (some t, _)` a produced token together with the mutated lexer. -/
def Lexer.next (l : Lexer) : Option (Option Token × Lexer) :=
  match Lexer.skip_whitespace l with
  | Option.none => Option.none
  | some l1 =>
    match byteDrop? l1.string l1.state.pos with
    | Option.none => Option.none
    | some cs =>
      let r := nextLoop cs (charIndices cs) l1.state TokenValue.None
      some
        (if r.1 = TokenValue.None then Option.none
         else some { pos := l1.state.pos, lino := l1.state.lino, charpos := l1.state.charpos, value := r.1 },
         { l1 with state := r.2 })

/-- `Lexer::peek`: checkpoint the state, run `next`, restore the state. -/
def Lexer.peek (l : Lexer) : Option (Option Token × Lexer) :=
  match Lexer.next l with
  | Option.none => Option.none
  | some (t, l1) => some (t, { l1 with state := l.state })

/-- Result of exhausting the lexer by repeated `next` calls. -/
inductive RunResult where
  | panic
  | timeout
  | done (toks : List Token) (final : Lexer)
deriving DecidableEq

/-- Repeatedly call `next` (with fuel) until it reports exhaustion,
collecting the produced tokens. -/
def run : Nat → Lexer → RunResult
  | 0, _ => RunResult.timeout
  | fuel + 1, l =>
    match Lexer.next l with
    | Option.none => RunResult.panic
    | some (Option.none, l1) => RunResult.done [] l1
    | some (some t, l1) =>
      match run fuel l1 with
      | RunResult.done ts lf => RunResult.done (t :: ts) lf
      | r => r

/-- The consumed byte span of each token-producing `next` call: the cursor
movement of the call (whitespace skipped plus characters consumed).  Stops
at exhaustion without recording a span for the exhausting call. -/
def runSpans : Nat → Lexer → Option (List Nat × Lexer)
  | 0, _ => Option.none
  | fuel + 1, l =>
    match Lexer.next l with
    | Option.none => Option.none
    | some (Option.none, l1) => some ([], l1)
    | some (some _, l1) =>
      match runSpans fuel l1 with
      | some (ns, lf) => some ((l1.state.pos - l.state.pos) :: ns, lf)
      | Option.none => Option.none

/-! ### Byte-position lemmas -/

lemma utf8Width_pos (c : Char) : 1 ≤ utf8Width c := by
  unfold utf8Width
  split_ifs <;> omega

lemma utf8Width_eq_one {c : Char} (h : c.toNat < 128) : utf8Width c = 1 := by
  unfold utf8Width
  rw [if_pos h]

@[simp] lemma byteLen_nil : byteLen [] = 0 := rfl

@[simp] lemma byteLen_cons (c : Char) (s : List Char) :
    byteLen (c :: s) = utf8Width c + byteLen s := by
  simp [byteLen]

@[simp] lemma byteLen_append (xs ys : List Char) :
    byteLen (xs ++ ys) = byteLen xs + byteLen ys := by
  simp [byteLen]

lemma byteDrop?_nil {n : Nat} (hn : n ≠ 0) : byteDrop? [] n = Option.none := by
  unfold byteDrop?
  rw [if_neg hn]

lemma byteDrop?_cons (c : Char) (s : List Char) {n : Nat} (hn : n ≠ 0) :
    byteDrop? (c :: s) n =
      if utf8Width c ≤ n then byteDrop? s (n - utf8Width c) else Option.none := by
  conv_lhs => rw [byteDrop?]
  rw [if_neg hn]

@[simp] lemma byteDrop?_zero (s : List Char) : byteDrop? s 0 = some s := by
  unfold byteDrop?
  simp

lemma byteTakeD_zero (s : List Char) : byteTakeD s 0 = [] := by
  cases s with
  | nil => rfl
  | cons c s' =>
    unfold byteTakeD
    rw [if_neg]
    have := utf8Width_pos c
    omega

lemma byteTakeD_append (xs ys : List Char) : byteTakeD (xs ++ ys) (byteLen xs) = xs := by
  induction xs with
  | nil => simpa using byteTakeD_zero ys
  | cons c xs' ih =>
    have hw := utf8Width_pos c
    simp only [List.cons_append, byteLen_cons]
    unfold byteTakeD
    rw [if_pos (by omega)]
    have h2 : utf8Width c + byteLen xs' - utf8Width c = byteLen xs' := by omega
    rw [h2, ih]

lemma byteDrop?_suffix :
    ∀ (s : List Char) (n : Nat) (t : List Char),
      byteDrop? s n = some t → ∃ u, s = u ++ t ∧ byteLen u = n := by
  intro s
  induction s with
  | nil =>
    intro n t h
    rcases Nat.eq_zero_or_pos n with hn | hn
    · subst hn
      simp at h
      exact ⟨[], by simp [h]⟩
    · rw [byteDrop?_nil (by omega)] at h
      exact absurd h (by simp)
  | cons c s' ih =>
    intro n t h
    rcases Nat.eq_zero_or_pos n with hn | hn
    · subst hn
      simp at h
      exact ⟨[], by simp [h]⟩
    · rw [byteDrop?_cons c s' (by omega)] at h
      by_cases hw : utf8Width c ≤ n
      · rw [if_pos hw] at h
        obtain ⟨u', hu', hlen⟩ := ih (n - utf8Width c) t h
        refine ⟨c :: u', by simp [hu'], ?_⟩
        rw [byteLen_cons, hlen]
        omega
      · rw [if_neg hw] at h
        exact absurd h (by simp)

lemma byteDrop?_byteLen {s : List Char} {n : Nat} {t : List Char}
    (h : byteDrop? s n = some t) : n + byteLen t = byteLen s := by
  obtain ⟨u, hu, hlen⟩ := byteDrop?_suffix s n t h
  subst hu
  rw [byteLen_append, hlen]

lemma byteDrop?_add :
    ∀ (s : List Char) (p q : Nat) (t : List Char),
      byteDrop? s p = some t → byteDrop? s (p + q) = byteDrop? t q := by
  intro s
  induction s with
  | nil =>
    intro p q t h
    rcases Nat.eq_zero_or_pos p with hp | hp
    · subst hp
      simp at h
      simp [h]
    · rw [byteDrop?_nil (by omega)] at h
      exact absurd h (by simp)
  | cons c s' ih =>
    intro p q t h
    rcases Nat.eq_zero_or_pos p with hp | hp
    · subst hp
      simp at h
      simp [h]
    · rw [byteDrop?_cons c s' (by omega)] at h
      by_cases hw : utf8Width c ≤ p
      · rw [if_pos hw] at h
        have hrec := ih (p - utf8Width c) q t h
        rw [byteDrop?_cons c s' (by omega), if_pos (by omega)]
        have harith : p + q - utf8Width c = (p - utf8Width c) + q := by omega
        rw [harith, hrec]
      · rw [if_neg hw] at h
        exact absurd h (by simp)

lemma byteDrop?_ascii :
    ∀ (s : List Char) (n : Nat), (∀ c ∈ s, utf8Width c = 1) → n ≤ s.length →
      byteDrop? s n = some (s.drop n) := by
  intro s
  induction s with
  | nil =>
    intro n _ hle
    have : n = 0 := by simpa using hle
    subst this
    simp
  | cons c s' ih =>
    intro n ha hle
    rcases Nat.eq_zero_or_pos n with hn | hn
    · subst hn
      simp
    · have hc : utf8Width c = 1 := ha c (by simp)
      rw [byteDrop?_cons c s' (by omega), if_pos (by omega), hc]
      have h1 : n - 1 ≤ s'.length := by
        simp only [List.length_cons] at hle
        omega
      rw [ih (n - 1) (fun d hd => ha d (by simp [hd])) h1]
      congr 1
      obtain ⟨m, rfl⟩ : ∃ m, n = m + 1 := ⟨n - 1, by omega⟩
      simp

lemma charIndicesA_append :
    ∀ (xs ys : List Char) (i : Nat),
      charIndicesA i (xs ++ ys) = charIndicesA i xs ++ charIndicesA (i + byteLen xs) ys := by
  intro xs
  induction xs with
  | nil => intro ys i; simp [charIndicesA]
  | cons c xs' ih =>
    intro ys i
    simp [charIndicesA, ih, Nat.add_assoc]

/-! ### Whitespace-skipping lemmas -/

lemma skipWsLoop_stop {c : Char} (i : Nat) (rest : List (Nat × Char)) (st : LexerState)
    (h1 : c ≠ ' ') (h2 : c ≠ '\t') (h3 : c ≠ ';') :
    skipWsLoop ((i, c) :: rest) st false = st := by
  unfold skipWsLoop
  rw [if_neg (by simp), if_neg (by simp [h1, h2]), if_neg h3]

lemma skipWsLoop_pos_mono :
    ∀ (ics : List (Nat × Char)) (st : LexerState) (b : Bool),
      st.pos ≤ (skipWsLoop ics st b).pos := by
  intro ics
  induction ics with
  | nil => intro st b; simp [skipWsLoop]
  | cons p rest ih =>
    intro st b
    obtain ⟨i, c⟩ := p
    unfold skipWsLoop
    split_ifs with hc1 hc2 hc3
    · exact le_trans (Nat.le_succ _)
        (ih { st with pos := st.pos + 1, charpos := 0, lino := st.lino + 1 } false)
    · exact le_trans (Nat.le_succ _)
        (ih { st with pos := st.pos + 1, charpos := st.charpos + 1 } b)
    · exact le_trans (Nat.le_succ _)
        (ih { st with pos := st.pos + 1, charpos := st.charpos + 1 } true)
    · exact le_refl _

lemma skipWsLoop_ascii :
    ∀ (cs : List Char) (i : Nat) (st : LexerState) (b : Bool),
      ∃ k, k ≤ cs.length ∧ (skipWsLoop (charIndicesA i cs) st b).pos = st.pos + k ∧
        (k = cs.length ∨
          ∃ c cs', cs.drop k = c :: cs' ∧ c ≠ ' ' ∧ c ≠ '\t' ∧ c ≠ ';') := by
  intro cs
  induction cs with
  | nil =>
    intro i st b
    exact ⟨0, by simp [charIndicesA, skipWsLoop]⟩
  | cons c cs' ih =>
    intro i st b
    simp only [charIndicesA]
    unfold skipWsLoop
    split_ifs with hc1 hc2 hc3
    · obtain ⟨k, hk, hpos, hdis⟩ := ih (i + utf8Width c) _ false
      refine ⟨k + 1, by simp; omega, by rw [hpos]; simp; omega, ?_⟩
      rcases hdis with h | ⟨d, ds, hd⟩
      · exact Or.inl (by simp [h])
      · exact Or.inr ⟨d, ds, by simpa using hd⟩
    · obtain ⟨k, hk, hpos, hdis⟩ := ih (i + utf8Width c) _ b
      refine ⟨k + 1, by simp; omega, by rw [hpos]; simp; omega, ?_⟩
      rcases hdis with h | ⟨d, ds, hd⟩
      · exact Or.inl (by simp [h])
      · exact Or.inr ⟨d, ds, by simpa using hd⟩
    · obtain ⟨k, hk, hpos, hdis⟩ := ih (i + utf8Width c) _ true
      refine ⟨k + 1, by simp; omega, by rw [hpos]; simp; omega, ?_⟩
      rcases hdis with h | ⟨d, ds, hd⟩
      · exact Or.inl (by simp [h])
      · exact Or.inr ⟨d, ds, by simpa using hd⟩
    · refine ⟨0, by simp, by simp, Or.inr ⟨c, cs', by simp, ?_, ?_, ?_⟩⟩
      · intro h; exact hc2 (Or.inl h)
      · intro h; exact hc2 (Or.inr (Or.inl h))
      · exact hc3

/-! ### Token-loop lemmas -/

lemma postStep_of_ne {st : LexerState} {v : TokenValue} (h : v ≠ TokenValue.Newline) :
    postStep st v = { st with charpos := st.charpos + 1 } := by
  simp [postStep, h]

lemma finishLiteral_ne_none (span : List Char) : finishLiteral span ≠ TokenValue.None := by
  cases h : fromStrRadix8 span with
  | none => simp [finishLiteral, h]
  | some n =>
    simp only [finishLiteral, h]
    split_ifs <;> simp

lemma endsSpace_cons {c : Char} {cs u : List Char} (h : c :: cs = u ++ [' ']) :
    (cs = [] ∧ c = ' ') ∨ ∃ u', cs = u' ++ [' '] := by
  cases u with
  | nil =>
    simp at h
    exact Or.inl ⟨h.2, h.1⟩
  | cons d u' =>
    simp at h
    exact Or.inr ⟨u', h.2⟩

lemma nextLoop_symbol_run (cs0 : List Char) :
    ∀ (cs : List Char) (i : Nat) (t : Char) (rest s : List Char) (st : LexerState),
      (∀ c ∈ cs, isSymbolChar c = true) → isSymbolChar t = false →
      nextLoop cs0 (charIndicesA i (cs ++ t :: rest)) st (TokenValue.Symbol s) =
        (TokenValue.Symbol (s ++ byteTakeD cs0 (i + byteLen cs)),
         ⟨st.pos + (i + byteLen cs), st.lino, st.charpos + cs.length⟩) := by
  intro cs
  induction cs with
  | nil =>
    intro i t rest s st _ ht
    simp only [List.nil_append, charIndicesA, nextLoop, ht, Bool.false_eq_true, if_false,
      byteLen_nil, Nat.add_zero, List.length_nil]
    rfl
  | cons c cs' ih =>
    intro i t rest s st hall ht
    have hc : isSymbolChar c = true := hall c (by simp)
    simp only [List.cons_append, charIndicesA, nextLoop, hc, if_true, List.append_eq]
    rw [postStep_of_ne (by simp)]
    rw [ih (i + utf8Width c) t rest s _ (fun d hd => hall d (by simp [hd])) ht]
    have h1 : i + byteLen (c :: cs') = i + utf8Width c + byteLen cs' := by
      rw [byteLen_cons]
      omega
    have h2 : st.charpos + (c :: cs').length = st.charpos + 1 + cs'.length := by
      simp only [List.length_cons]
      omega
    rw [h1, h2]

lemma nextLoop_u12_run (cs0 : List Char) :
    ∀ (cs : List Char) (i : Nat) (t : Char) (rest : List Char) (v0 : Nat) (st : LexerState),
      (∀ c ∈ cs, isOctalDigit c = true) → isOctalDigit t = false →
      nextLoop cs0 (charIndicesA i (cs ++ t :: rest)) st (TokenValue.U12 v0) =
        (finishLiteral (byteTakeD cs0 (i + byteLen cs)),
         ⟨st.pos + (i + byteLen cs), st.lino, st.charpos + cs.length⟩) := by
  intro cs
  induction cs with
  | nil =>
    intro i t rest v0 st _ ht
    simp only [List.nil_append, charIndicesA, nextLoop, ht, Bool.false_eq_true, if_false,
      byteLen_nil, Nat.add_zero, List.length_nil]
    rfl
  | cons c cs' ih =>
    intro i t rest v0 st hall ht
    have hc : isOctalDigit c = true := hall c (by simp)
    simp only [List.cons_append, charIndicesA, nextLoop, hc, if_true, List.append_eq]
    rw [postStep_of_ne (by simp)]
    rw [ih (i + utf8Width c) t rest v0 _ (fun d hd => hall d (by simp [hd])) ht]
    have h1 : i + byteLen (c :: cs') = i + utf8Width c + byteLen cs' := by
      rw [byteLen_cons]
      omega
    have h2 : st.charpos + (c :: cs').length = st.charpos + 1 + cs'.length := by
      simp only [List.length_cons]
      omega
    rw [h1, h2]

lemma nextLoop_string_close (cs0 : List Char) :
    ∀ (cs : List Char) (i : Nat) (s rest : List Char) (st : LexerState),
      '"' ∉ cs → i + byteLen cs < byteLen cs0 →
      nextLoop cs0 (charIndicesA i (cs ++ '"' :: rest)) st (TokenValue.String s) =
        (TokenValue.String (s ++ cs),
         ⟨st.pos + (i + byteLen cs + 1), st.lino, st.charpos + cs.length⟩) := by
  intro cs
  induction cs with
  | nil =>
    intro i s rest st _ _
    simp only [List.nil_append, charIndicesA, nextLoop]
    rw [if_pos trivial]
    simp only [List.append_nil, byteLen_nil, Nat.add_zero, List.length_nil]
    rfl
  | cons c cs' ih =>
    intro i s rest st hq hb
    have hcne : c ≠ '"' := fun h => hq (by simp [h])
    have hwc := utf8Width_pos c
    rw [byteLen_cons] at hb
    have hlast : i ≠ byteLen cs0 - 1 := by omega
    simp only [List.cons_append, charIndicesA, nextLoop, List.append_eq]
    rw [if_neg hcne, if_neg hlast]
    rw [postStep_of_ne (by simp)]
    rw [ih (i + utf8Width c) (s ++ [c]) rest _ (fun h => hq (by simp [h])) (by omega)]
    have h1 : i + (utf8Width c + byteLen cs') + 1 = i + utf8Width c + byteLen cs' + 1 := by
      omega
    have h2 : st.charpos + (c :: cs').length = st.charpos + 1 + cs'.length := by
      simp only [List.length_cons]
      omega
    rw [byteLen_cons, h1, h2]
    simp [List.append_assoc]

lemma nextLoop_string_unterm (cs0 : List Char) :
    ∀ (cs : List Char) (i : Nat) (s : List Char) (t : Char) (st : LexerState),
      '"' ∉ cs → t ≠ '"' → i + byteLen cs + 1 = byteLen cs0 →
      nextLoop cs0 (charIndicesA i (cs ++ [t])) st (TokenValue.String s) =
        (TokenValue.Err (byteTakeD cs0 (i + byteLen cs)),
         ⟨st.pos + (i + byteLen cs), st.lino, st.charpos + cs.length⟩) := by
  intro cs
  induction cs with
  | nil =>
    intro i s t st _ ht hsplit
    simp only [byteLen_nil, Nat.add_zero] at hsplit ⊢
    simp only [List.nil_append, charIndicesA, nextLoop]
    rw [if_neg ht, if_pos (by omega)]
    simp only [List.length_nil, Nat.add_zero]
    rfl
  | cons c cs' ih =>
    intro i s t st hq ht hsplit
    have hcne : c ≠ '"' := fun h => hq (by simp [h])
    have hwc := utf8Width_pos c
    rw [byteLen_cons] at hsplit
    have hlast : i ≠ byteLen cs0 - 1 := by omega
    simp only [List.cons_append, charIndicesA, nextLoop, List.append_eq]
    rw [if_neg hcne, if_neg hlast]
    rw [postStep_of_ne (by simp)]
    rw [ih (i + utf8Width c) (s ++ [c]) t _ (fun h => hq (by simp [h])) ht (by omega)]
    have h1 : i + byteLen (c :: cs') = i + utf8Width c + byteLen cs' := by
      rw [byteLen_cons]
      omega
    have h2 : st.charpos + (c :: cs').length = st.charpos + 1 + cs'.length := by
      simp only [List.length_cons]
      omega
    rw [h1, h2]

lemma nextLoop_keep_ne_none (cs0 : List Char) :
    ∀ (ics : List (Nat × Char)) (st : LexerState) (v : TokenValue),
      v ≠ TokenValue.None → (nextLoop cs0 ics st v).1 ≠ TokenValue.None := by
  intro ics
  induction ics with
  | nil =>
    intro st v hv
    simpa [nextLoop] using hv
  | cons p rest ih =>
    obtain ⟨i, c⟩ := p
    intro st v hv
    cases v with
    | None => exact absurd rfl hv
    | Symbol s =>
      simp only [nextLoop]
      by_cases hc : isSymbolChar c = true
      · rw [if_pos hc]
        exact ih _ _ (by simp)
      · rw [if_neg hc]
        simp
    | U12 v0 =>
      simp only [nextLoop]
      by_cases hc : isOctalDigit c = true
      · rw [if_pos hc]
        exact ih _ _ (by simp)
      · rw [if_neg hc]
        simpa using finishLiteral_ne_none _
    | String s =>
      simp only [nextLoop]
      by_cases hc : c = '"'
      · rw [if_pos hc]
        simp
      · rw [if_neg hc]
        by_cases hl : i = byteLen cs0 - 1
        · rw [if_pos hl]
          simp
        · rw [if_neg hl]
          exact ih _ _ (by simp)
    | Err m => simp [nextLoop]
    | LParen => simp [nextLoop]
    | RParen => simp [nextLoop]
    | Colon => simp [nextLoop]
    | Comma => simp [nextLoop]
    | Newline => simp [nextLoop]
    | LT => simp [nextLoop]
    | GT => simp [nextLoop]
    | Dot => simp [nextLoop]
    | U9 v0 => simp [nextLoop]

lemma nextLoop_cons_none (cs0 : List Char) (i : Nat) (c : Char) (rest : List (Nat × Char))
    (st : LexerState) :
    nextLoop cs0 ((i, c) :: rest) st TokenValue.None =
      if i ≠ 0 then (TokenValue.Err (invalidTokenMsg (byteTakeD cs0 i)), advance st i)
      else
        nextLoop cs0 rest
          (postStep (if c = '\n' then { st with charpos := 0, lino := st.lino + 1 } else st)
            (classify c))
          (classify c) := rfl

lemma postStep_pos (st : LexerState) (v : TokenValue) : (postStep st v).pos = st.pos := by
  unfold postStep
  split_ifs <;> rfl

lemma newlineUpd_pos (st : LexerState) (c : Char) :
    (if c = '\n' then { st with charpos := 0, lino := st.lino + 1 } else st).pos = st.pos := by
  split_ifs <;> rfl

lemma nextLoop_progress (cs0 : List Char) :
    ∀ (cs : List Char) (i : Nat) (st : LexerState) (v : TokenValue),
      i + byteLen cs = byteLen cs0 →
      (cs = [] ∨ ∃ u, cs = u ++ [' ']) →
      (v ≠ TokenValue.None → cs ≠ [] ∧ 1 ≤ i) →
      ((nextLoop cs0 (charIndicesA i cs) st v).1 = TokenValue.None ∧
        (nextLoop cs0 (charIndicesA i cs) st v).2.pos = st.pos) ∨
      st.pos + 1 ≤ (nextLoop cs0 (charIndicesA i cs) st v).2.pos := by
  intro cs
  induction cs with
  | nil =>
    intro i st v _ _ hv
    by_cases h : v = TokenValue.None
    · subst h
      exact Or.inl ⟨by simp [charIndicesA, nextLoop], by simp [charIndicesA, nextLoop]⟩
    · exact absurd rfl (hv h).1
  | cons c cs' ih =>
    intro i st v hsplit hws hv
    have hwc := utf8Width_pos c
    rw [byteLen_cons] at hsplit
    rcases hws with h | ⟨u, hu⟩
    · exact absurd h (by simp)
    have hws' : cs' = [] ∨ ∃ u', cs' = u' ++ [' '] := by
      rcases endsSpace_cons hu with ⟨h1, _⟩ | ⟨u', hu'⟩
      · exact Or.inl h1
      · exact Or.inr ⟨u', hu'⟩
    cases v with
    | None =>
      rw [charIndicesA, nextLoop_cons_none]
      by_cases hi : i = 0
      · rw [if_neg (by simp [hi])]
        have hv' : classify c ≠ TokenValue.None → cs' ≠ [] ∧ 1 ≤ i + utf8Width c := by
          intro hcl
          refine ⟨?_, by omega⟩
          intro hnil
          rcases endsSpace_cons hu with ⟨_, h2⟩ | ⟨u', hu'⟩
          · subst h2
            exact hcl (by decide)
          · subst hnil
            simp at hu'
        have hrc := ih (i + utf8Width c)
          (postStep (if c = '\n' then { st with charpos := 0, lino := st.lino + 1 } else st)
            (classify c))
          (classify c) (by omega) hws' hv'
        have hp : (postStep (if c = '\n' then { st with charpos := 0, lino := st.lino + 1 } else st)
            (classify c)).pos = st.pos := by
          rw [postStep_pos, newlineUpd_pos]
        rw [hp] at hrc
        exact hrc
      · rw [if_pos hi]
        refine Or.inr ?_
        simp only [advance]
        omega
    | Symbol s =>
      obtain ⟨-, hi⟩ := hv (by simp)
      rw [charIndicesA]
      simp only [nextLoop]
      by_cases hc : isSymbolChar c = true
      · rw [if_pos hc]
        have hv' : TokenValue.Symbol s ≠ TokenValue.None → cs' ≠ [] ∧ 1 ≤ i + utf8Width c := by
          intro _
          refine ⟨?_, by omega⟩
          intro hnil
          rcases endsSpace_cons hu with ⟨_, h2⟩ | ⟨u', hu'⟩
          · subst h2
            simp [isSymbolChar] at hc
          · subst hnil
            simp at hu'
        have hrc := ih (i + utf8Width c) (postStep st (TokenValue.Symbol s))
          (TokenValue.Symbol s) (by omega) hws' hv'
        rw [postStep_pos] at hrc
        exact hrc
      · rw [if_neg hc]
        refine Or.inr ?_
        simp only [advance]
        omega
    | U12 v0 =>
      obtain ⟨-, hi⟩ := hv (by simp)
      rw [charIndicesA]
      simp only [nextLoop]
      by_cases hc : isOctalDigit c = true
      · rw [if_pos hc]
        have hv' : TokenValue.U12 v0 ≠ TokenValue.None → cs' ≠ [] ∧ 1 ≤ i + utf8Width c := by
          intro _
          refine ⟨?_, by omega⟩
          intro hnil
          rcases endsSpace_cons hu with ⟨_, h2⟩ | ⟨u', hu'⟩
          · subst h2
            simp [isOctalDigit] at hc
          · subst hnil
            simp at hu'
        have hrc := ih (i + utf8Width c) (postStep st (TokenValue.U12 v0))
          (TokenValue.U12 v0) (by omega) hws' hv'
        rw [postStep_pos] at hrc
        exact hrc
      · rw [if_neg hc]
        refine Or.inr ?_
        simp only [advance]
        omega
    | String s =>
      obtain ⟨-, hi⟩ := hv (by simp)
      rw [charIndicesA]
      simp only [nextLoop]
      by_cases hq : c = '"'
      · rw [if_pos hq]
        refine Or.inr ?_
        simp only [advance]
        omega
      · rw [if_neg hq]
        by_cases hl : i = byteLen cs0 - 1
        · rw [if_pos hl]
          refine Or.inr ?_
          simp only [advance]
          omega
        · rw [if_neg hl]
          have hv' : TokenValue.String (s ++ [c]) ≠ TokenValue.None →
              cs' ≠ [] ∧ 1 ≤ i + utf8Width c := by
            intro _
            refine ⟨?_, by omega⟩
            intro hnil
            rcases endsSpace_cons hu with ⟨_, h2⟩ | ⟨u', hu'⟩
            · subst h2
              subst hnil
              simp only [byteLen_nil] at hsplit
              have : utf8Width ' ' = 1 := by decide
              omega
            · subst hnil
              simp at hu'
          have hrc := ih (i + utf8Width c) (postStep st (TokenValue.String (s ++ [c])))
            (TokenValue.String (s ++ [c])) (by omega) hws' hv'
          rw [postStep_pos] at hrc
          exact hrc
    | Err m =>
      obtain ⟨-, hi⟩ := hv (by simp)
      rw [charIndicesA]
      simp only [nextLoop]
      refine Or.inr ?_
      simp only [advance]
      omega
    | LParen =>
      obtain ⟨-, hi⟩ := hv (by simp)
      rw [charIndicesA]
      simp only [nextLoop]
      refine Or.inr ?_
      simp only [advance]
      omega
    | RParen =>
      obtain ⟨-, hi⟩ := hv (by simp)
      rw [charIndicesA]
      simp only [nextLoop]
      refine Or.inr ?_
      simp only [advance]
      omega
    | Colon =>
      obtain ⟨-, hi⟩ := hv (by simp)
      rw [charIndicesA]
      simp only [nextLoop]
      refine Or.inr ?_
      simp only [advance]
      omega
    | Comma =>
      obtain ⟨-, hi⟩ := hv (by simp)
      rw [charIndicesA]
      simp only [nextLoop]
      refine Or.inr ?_
      simp only [advance]
      omega
    | Newline =>
      obtain ⟨-, hi⟩ := hv (by simp)
      rw [charIndicesA]
      simp only [nextLoop]
      refine Or.inr ?_
      simp only [advance]
      omega
    | LT =>
      obtain ⟨-, hi⟩ := hv (by simp)
      rw [charIndicesA]
      simp only [nextLoop]
      refine Or.inr ?_
      simp only [advance]
      omega
    | GT =>
      obtain ⟨-, hi⟩ := hv (by simp)
      rw [charIndicesA]
      simp only [nextLoop]
      refine Or.inr ?_
      simp only [advance]
      omega
    | Dot =>
      obtain ⟨-, hi⟩ := hv (by simp)
      rw [charIndicesA]
      simp only [nextLoop]
      refine Or.inr ?_
      simp only [advance]
      omega
    | U9 v0 =>
      obtain ⟨-, hi⟩ := hv (by simp)
      rw [charIndicesA]
      simp only [nextLoop]
      refine Or.inr ?_
      simp only [advance]
      omega

lemma nextLoop_pos_le (cs0 : List Char) :
    ∀ (cs : List Char) (i : Nat) (st : LexerState) (v : TokenValue),
      i + byteLen cs = byteLen cs0 →
      (nextLoop cs0 (charIndicesA i cs) st v).2.pos ≤ st.pos + byteLen cs0 := by
  intro cs
  induction cs with
  | nil =>
    intro i st v _
    simp only [charIndicesA, nextLoop]
    omega
  | cons c cs' ih =>
    intro i st v hsplit
    have hwc := utf8Width_pos c
    rw [byteLen_cons] at hsplit
    cases v with
    | None =>
      rw [charIndicesA, nextLoop_cons_none]
      by_cases hi : i = 0
      · rw [if_neg (by simp [hi])]
        have hrc := ih (i + utf8Width c)
          (postStep (if c = '\n' then { st with charpos := 0, lino := st.lino + 1 } else st)
            (classify c))
          (classify c) (by omega)
        rw [postStep_pos, newlineUpd_pos] at hrc
        exact hrc
      · rw [if_pos hi]
        simp only [advance]
        omega
    | Symbol s =>
      rw [charIndicesA]
      simp only [nextLoop]
      by_cases hc : isSymbolChar c = true
      · rw [if_pos hc]
        have hrc := ih (i + utf8Width c) (postStep st (TokenValue.Symbol s))
          (TokenValue.Symbol s) (by omega)
        rw [postStep_pos] at hrc
        exact hrc
      · rw [if_neg hc]
        simp only [advance]
        omega
    | U12 v0 =>
      rw [charIndicesA]
      simp only [nextLoop]
      by_cases hc : isOctalDigit c = true
      · rw [if_pos hc]
        have hrc := ih (i + utf8Width c) (postStep st (TokenValue.U12 v0))
          (TokenValue.U12 v0) (by omega)
        rw [postStep_pos] at hrc
        exact hrc
      · rw [if_neg hc]
        simp only [advance]
        omega
    | String s =>
      rw [charIndicesA]
      simp only [nextLoop]
      by_cases hq : c = '"'
      · rw [if_pos hq]
        simp only [advance]
        omega
      · rw [if_neg hq]
        by_cases hl : i = byteLen cs0 - 1
        · rw [if_pos hl]
          simp only [advance]
          omega
        · rw [if_neg hl]
          have hrc := ih (i + utf8Width c) (postStep st (TokenValue.String (s ++ [c])))
            (TokenValue.String (s ++ [c])) (by omega)
          rw [postStep_pos] at hrc
          exact hrc
    | Err m =>
      rw [charIndicesA]
      simp only [nextLoop, advance]
      omega
    | LParen =>
      rw [charIndicesA]
      simp only [nextLoop, advance]
      omega
    | RParen =>
      rw [charIndicesA]
      simp only [nextLoop, advance]
      omega
    | Colon =>
      rw [charIndicesA]
      simp only [nextLoop, advance]
      omega
    | Comma =>
      rw [charIndicesA]
      simp only [nextLoop, advance]
      omega
    | Newline =>
      rw [charIndicesA]
      simp only [nextLoop, advance]
      omega
    | LT =>
      rw [charIndicesA]
      simp only [nextLoop, advance]
      omega
    | GT =>
      rw [charIndicesA]
      simp only [nextLoop, advance]
      omega
    | Dot =>
      rw [charIndicesA]
      simp only [nextLoop, advance]
      omega
    | U9 v0 =>
      rw [charIndicesA]
      simp only [nextLoop, advance]
      omega

/-! ### Character class facts -/

lemma isSymbolChar_width {c : Char} (h : isSymbolChar c = true) : utf8Width c = 1 := by
  apply utf8Width_eq_one
  simp only [isSymbolChar, decide_eq_true_eq] at h
  rcases h with ⟨_, h2⟩ | ⟨_, h2⟩ | ⟨_, h2⟩ | h2
  · have h3 : c.toNat ≤ 122 := h2
    omega
  · have h3 : c.toNat ≤ 90 := h2
    omega
  · have h3 : c.toNat ≤ 57 := h2
    omega
  · subst h2
    decide

lemma isSymbolStart_char {c : Char} (h : isSymbolStart c = true) : isSymbolChar c = true := by
  simp only [isSymbolStart, decide_eq_true_eq] at h
  simp only [isSymbolChar, decide_eq_true_eq]
  tauto

lemma isOctalDigit_width {c : Char} (h : isOctalDigit c = true) : utf8Width c = 1 := by
  apply utf8Width_eq_one
  simp only [isOctalDigit, decide_eq_true_eq] at h
  have h3 : c.toNat ≤ 55 := h.2
  omega

/-! ### Unfolding `Lexer.next` -/

lemma next_eq (l : Lexer) :
    Lexer.next l =
      match byteDrop? l.string l.state.pos with
      | Option.none => Option.none
      | some cs1 =>
        match byteDrop? l.string (skipWsLoop (charIndices cs1) l.state false).pos with
        | Option.none => Option.none
        | some cs =>
          some
            (if (nextLoop cs (charIndices cs) (skipWsLoop (charIndices cs1) l.state false)
                  TokenValue.None).1 = TokenValue.None then Option.none
             else some
               { pos := (skipWsLoop (charIndices cs1) l.state false).pos,
                 lino := (skipWsLoop (charIndices cs1) l.state false).lino,
                 charpos := (skipWsLoop (charIndices cs1) l.state false).charpos,
                 value := (nextLoop cs (charIndices cs) (skipWsLoop (charIndices cs1) l.state false)
                   TokenValue.None).1 },
             { l with state := (nextLoop cs (charIndices cs)
                 (skipWsLoop (charIndices cs1) l.state false) TokenValue.None).2 }) := by
  unfold Lexer.next Lexer.skip_whitespace
  cases byteDrop? l.string l.state.pos with
  | none => rfl
  | some cs1 => rfl

lemma next_eq_of_stop (l : Lexer) (c : Char) (cs : List Char)
    (hdrop : byteDrop? l.string l.state.pos = some (c :: cs))
    (h1 : c ≠ ' ') (h2 : c ≠ '\t') (h3 : c ≠ ';') :
    Lexer.next l =
      some
        (if (nextLoop (c :: cs) (charIndices (c :: cs)) l.state TokenValue.None).1 =
            TokenValue.None then Option.none
         else some
           { pos := l.state.pos, lino := l.state.lino, charpos := l.state.charpos,
             value := (nextLoop (c :: cs) (charIndices (c :: cs)) l.state TokenValue.None).1 },
         { l with
            state := (nextLoop (c :: cs) (charIndices (c :: cs)) l.state TokenValue.None).2 }) := by
  have hstop : skipWsLoop (charIndices (c :: cs)) l.state false = l.state := by
    rw [charIndices, charIndicesA]
    exact skipWsLoop_stop _ _ _ h1 h2 h3
  rw [next_eq, hdrop]
  simp only [hstop, hdrop]

lemma classify_symbolStart {c : Char} (h : isSymbolStart c = true) :
    classify c = TokenValue.Symbol [] := by
  unfold classify
  rw [if_neg (fun hh => by rw [hh] at h; exact absurd h (by decide)),
    if_neg (fun hh => by rw [hh] at h; exact absurd h (by decide)),
    if_neg (fun hh => by rw [hh] at h; exact absurd h (by decide)),
    if_neg (fun hh => by rw [hh] at h; exact absurd h (by decide)),
    if_neg (fun hh => by rw [hh] at h; exact absurd h (by decide)),
    if_neg (fun hh => by rw [hh] at h; exact absurd h (by decide)),
    if_neg (fun hh => by rw [hh] at h; exact absurd h (by decide)),
    if_neg (fun hh => by rw [hh] at h; exact absurd h (by decide)),
    if_pos h]

lemma isSymbolStart_not_space {c : Char} (h : isSymbolStart c = true) :
    c ≠ ' ' ∧ c ≠ '\t' ∧ c ≠ ';' ∧ c ≠ '\n' := by
  refine ⟨?_, ?_, ?_, ?_⟩ <;>
    exact fun hh => by rw [hh] at h; exact absurd h (by decide)

lemma isOctalDigit_not_space {c : Char} (h : isOctalDigit c = true) :
    c ≠ ' ' ∧ c ≠ '\t' ∧ c ≠ ';' ∧ c ≠ '\n' := by
  refine ⟨?_, ?_, ?_, ?_⟩ <;>
    exact fun hh => by rw [hh] at h; exact absurd h (by decide)

lemma isOctalDigit_not_symbolStart {c : Char} (h : isOctalDigit c = true) :
    isSymbolStart c = false := by
  simp only [isOctalDigit, decide_eq_true_eq] at h
  have h2 : c.toNat ≤ 55 := h.2
  simp only [isSymbolStart, decide_eq_false_iff_not]
  rintro (⟨ha, _⟩ | ⟨ha, _⟩ | ha)
  · have : 97 ≤ c.toNat := ha
    omega
  · have : 65 ≤ c.toNat := ha
    omega
  · subst ha
    exact absurd h2 (by decide)

lemma classify_octal {c : Char} (h : isOctalDigit c = true) :
    classify c = TokenValue.U12 0 := by
  unfold classify
  rw [if_neg (fun hh => by rw [hh] at h; exact absurd h (by decide)),
    if_neg (fun hh => by rw [hh] at h; exact absurd h (by decide)),
    if_neg (fun hh => by rw [hh] at h; exact absurd h (by decide)),
    if_neg (fun hh => by rw [hh] at h; exact absurd h (by decide)),
    if_neg (fun hh => by rw [hh] at h; exact absurd h (by decide)),
    if_neg (fun hh => by rw [hh] at h; exact absurd h (by decide)),
    if_neg (fun hh => by rw [hh] at h; exact absurd h (by decide)),
    if_neg (fun hh => by rw [hh] at h; exact absurd h (by decide)),
    if_neg (by rw [isOctalDigit_not_symbolStart h]; simp),
    if_pos h]

lemma next_symbol (l : Lexer) (c : Char) (cs : List Char) (t : Char) (rest : List Char)
    (hdrop : byteDrop? l.string l.state.pos = some (c :: (cs ++ t :: rest)))
    (hc : isSymbolStart c = true) (hcs : ∀ d ∈ cs, isSymbolChar d = true)
    (ht : isSymbolChar t = false) :
    Lexer.next l =
      some (some ⟨l.state.pos, l.state.lino, l.state.charpos, TokenValue.Symbol (c :: cs)⟩,
        { l with state := ⟨l.state.pos + (1 + byteLen cs), l.state.lino,
            l.state.charpos + 1 + cs.length⟩ }) := by
  obtain ⟨hs1, hs2, hs3, hs4⟩ := isSymbolStart_not_space hc
  have hw : utf8Width c = 1 := isSymbolChar_width (isSymbolStart_char hc)
  rw [next_eq_of_stop l c (cs ++ t :: rest) hdrop hs1 hs2 hs3]
  have hrun : nextLoop (c :: (cs ++ t :: rest)) (charIndices (c :: (cs ++ t :: rest)))
      l.state TokenValue.None =
      (TokenValue.Symbol (c :: cs),
       ⟨l.state.pos + (1 + byteLen cs), l.state.lino, l.state.charpos + 1 + cs.length⟩) := by
    rw [charIndices, charIndicesA, nextLoop_cons_none]
    rw [if_neg (by simp), classify_symbolStart hc, if_neg hs4]
    rw [postStep_of_ne (by simp), hw]
    rw [nextLoop_symbol_run _ cs (0 + 1) t rest [] _ hcs ht]
    have htake : byteTakeD (c :: (cs ++ t :: rest)) (0 + 1 + byteLen cs) = c :: cs := by
      have h1 : 0 + 1 + byteLen cs = byteLen (c :: cs) := by
        rw [byteLen_cons, hw]
      have h2 : c :: (cs ++ t :: rest) = (c :: cs) ++ (t :: rest) := by simp
      rw [h1, h2, byteTakeD_append]
    rw [htake]
    rfl
  rw [hrun]
  rw [if_neg (by simp)]

lemma next_octal (l : Lexer) (d : Char) (ds : List Char) (t : Char) (rest : List Char)
    (hdrop : byteDrop? l.string l.state.pos = some (d :: (ds ++ t :: rest)))
    (hd : isOctalDigit d = true) (hds : ∀ e ∈ ds, isOctalDigit e = true)
    (ht : isOctalDigit t = false) :
    Lexer.next l =
      some (some ⟨l.state.pos, l.state.lino, l.state.charpos, finishLiteral (d :: ds)⟩,
        { l with state := ⟨l.state.pos + (1 + byteLen ds), l.state.lino,
            l.state.charpos + 1 + ds.length⟩ }) := by
  obtain ⟨hs1, hs2, hs3, hs4⟩ := isOctalDigit_not_space hd
  have hw : utf8Width d = 1 := isOctalDigit_width hd
  rw [next_eq_of_stop l d (ds ++ t :: rest) hdrop hs1 hs2 hs3]
  have hrun : nextLoop (d :: (ds ++ t :: rest)) (charIndices (d :: (ds ++ t :: rest)))
      l.state TokenValue.None =
      (finishLiteral (d :: ds),
       ⟨l.state.pos + (1 + byteLen ds), l.state.lino, l.state.charpos + 1 + ds.length⟩) := by
    rw [charIndices, charIndicesA, nextLoop_cons_none]
    rw [if_neg (by simp), classify_octal hd, if_neg hs4]
    rw [postStep_of_ne (by simp), hw]
    rw [nextLoop_u12_run _ ds (0 + 1) t rest 0 _ hds ht]
    have htake : byteTakeD (d :: (ds ++ t :: rest)) (0 + 1 + byteLen ds) = d :: ds := by
      have e1 : 0 + 1 + byteLen ds = byteLen (d :: ds) := by
        rw [byteLen_cons, hw]
      have e2 : d :: (ds ++ t :: rest) = (d :: ds) ++ (t :: rest) := by simp
      rw [e1, e2, byteTakeD_append]
    rw [htake]
  rw [hrun]
  rw [if_neg (by simpa using finishLiteral_ne_none (d :: ds))]

lemma next_string_close (l : Lexer) (cs rest : List Char)
    (hdrop : byteDrop? l.string l.state.pos = some ('"' :: (cs ++ '"' :: rest)))
    (hq : '"' ∉ cs) :
    Lexer.next l =
      some (some ⟨l.state.pos, l.state.lino, l.state.charpos, TokenValue.String cs⟩,
        { l with state := ⟨l.state.pos + (1 + byteLen cs + 1), l.state.lino,
            l.state.charpos + 1 + cs.length⟩ }) := by
  have hw : utf8Width '"' = 1 := by decide
  rw [next_eq_of_stop l '"' (cs ++ '"' :: rest) hdrop (by decide) (by decide) (by decide)]
  have hrun : nextLoop ('"' :: (cs ++ '"' :: rest)) (charIndices ('"' :: (cs ++ '"' :: rest)))
      l.state TokenValue.None =
      (TokenValue.String cs,
       ⟨l.state.pos + (1 + byteLen cs + 1), l.state.lino, l.state.charpos + 1 + cs.length⟩) := by
    rw [charIndices, charIndicesA, nextLoop_cons_none]
    rw [if_neg (by simp), (by decide : classify '"' = TokenValue.String []),
      if_neg (by decide : ¬ ('"' = '\n'))]
    rw [postStep_of_ne (by simp), hw]
    have hbound : 0 + 1 + byteLen cs < byteLen ('"' :: (cs ++ '"' :: rest)) := by
      rw [byteLen_cons, byteLen_append, byteLen_cons, hw]
      omega
    rw [nextLoop_string_close _ cs (0 + 1) [] rest _ hq hbound]
    rw [List.nil_append]
  rw [hrun]
  rw [if_neg (by simp)]

lemma next_string_unterm (l : Lexer) (cs : List Char) (t : Char)
    (hdrop : byteDrop? l.string l.state.pos = some ('"' :: (cs ++ [t])))
    (hq : '"' ∉ cs) (ht : t ≠ '"') (htw : utf8Width t = 1) :
    Lexer.next l =
      some (some ⟨l.state.pos, l.state.lino, l.state.charpos,
          TokenValue.Err ('"' :: cs)⟩,
        { l with state := ⟨l.state.pos + (1 + byteLen cs), l.state.lino,
            l.state.charpos + 1 + cs.length⟩ }) := by
  have hw : utf8Width '"' = 1 := by decide
  rw [next_eq_of_stop l '"' (cs ++ [t]) hdrop (by decide) (by decide) (by decide)]
  have hsplit : 0 + 1 + byteLen cs + 1 = byteLen ('"' :: (cs ++ [t])) := by
    rw [byteLen_cons, byteLen_append, byteLen_cons, byteLen_nil, hw, htw]
    omega
  have hrun : nextLoop ('"' :: (cs ++ [t])) (charIndices ('"' :: (cs ++ [t])))
      l.state TokenValue.None =
      (TokenValue.Err ('"' :: cs),
       ⟨l.state.pos + (1 + byteLen cs), l.state.lino, l.state.charpos + 1 + cs.length⟩) := by
    rw [charIndices, charIndicesA, nextLoop_cons_none]
    rw [if_neg (by simp), (by decide : classify '"' = TokenValue.String []),
      if_neg (by decide : ¬ ('"' = '\n'))]
    rw [postStep_of_ne (by simp), hw]
    rw [nextLoop_string_unterm _ cs (0 + 1) [] t _ hq ht hsplit]
    have htake : byteTakeD ('"' :: (cs ++ [t])) (0 + 1 + byteLen cs) = '"' :: cs := by
      have e1 : 0 + 1 + byteLen cs = byteLen ('"' :: cs) := by
        rw [byteLen_cons, hw]
      have e2 : '"' :: (cs ++ [t]) = ('"' :: cs) ++ [t] := by simp
      rw [e1, e2, byteTakeD_append]
    rw [htake]
  rw [hrun]
  rw [if_neg (by simp)]

lemma postStep_newline (st : LexerState) : postStep st TokenValue.Newline = st := by
  simp [postStep]

lemma next_newline (l : Lexer) (c2 : Char) (rest : List Char)
    (hdrop : byteDrop? l.string l.state.pos = some ('\n' :: c2 :: rest)) :
    Lexer.next l =
      some (some ⟨l.state.pos, l.state.lino, l.state.charpos, TokenValue.Newline⟩,
        { l with state := ⟨l.state.pos + 1, l.state.lino + 1, 0⟩ }) := by
  rw [next_eq_of_stop l '\n' (c2 :: rest) hdrop (by decide) (by decide) (by decide)]
  have hrun : nextLoop ('\n' :: c2 :: rest) (charIndices ('\n' :: c2 :: rest))
      l.state TokenValue.None =
      (TokenValue.Newline, ⟨l.state.pos + 1, l.state.lino + 1, 0⟩) := by
    rw [charIndices, charIndicesA, nextLoop_cons_none]
    rw [if_neg (by simp), (by decide : classify '\n' = TokenValue.Newline), if_pos rfl]
    rw [postStep_newline]
    rw [charIndicesA]
    simp only [nextLoop]
    rw [(by decide : utf8Width '\n' = 1)]
    rfl
  rw [hrun]
  rw [if_neg (by simp)]

lemma next_fields {l : Lexer} {r : Option Token × Lexer} (h : Lexer.next l = some r) :
    r.2.string = l.string ∧ r.2.filename = l.filename := by
  rw [next_eq] at h
  split at h
  · simp at h
  · split at h
    · simp at h
    · simp only [Option.some.injEq] at h
      rw [← h]
      exact ⟨rfl, rfl⟩

lemma append_eq_ends_space :
    ∀ (v cs u : List Char), v ++ cs = u ++ [' '] → cs ≠ [] → ∃ w, cs = w ++ [' '] := by
  intro v
  induction v with
  | nil =>
    intro cs u h _
    exact ⟨u, by simpa using h⟩
  | cons x v' ih =>
    intro cs u h hne
    cases u with
    | nil =>
      simp only [List.cons_append, List.nil_append, List.cons.injEq] at h
      rcases h with ⟨-, h2⟩
      rcases List.append_eq_nil.mp h2 with ⟨-, h4⟩
      exact absurd h4 hne
    | cons y u' =>
      simp only [List.cons_append, List.cons.injEq] at h
      exact ih cs u' h.2 hne

lemma suffix_ends_space {s u v cs : List Char} (hs : s = u ++ [' ']) (hsuf : s = v ++ cs)
    (hne : cs ≠ []) : ∃ w, cs = w ++ [' '] :=
  append_eq_ends_space v cs u (hsuf.symm.trans hs) hne

lemma charIndices_eq (s : List Char) : charIndices s = charIndicesA 0 s := rfl

lemma byteLen_ascii {s : List Char} (ha : ∀ c ∈ s, utf8Width c = 1) :
    byteLen s = s.length := by
  induction s with
  | nil => simp
  | cons c s' ih =>
    rw [byteLen_cons, ha c (by simp), ih (fun d hd => ha d (by simp [hd]))]
    simp
    omega

lemma nextLoop_two_ne_none (cs0 : List Char) (c c2 : Char) (cs'' : List Char) (st : LexerState) :
    (nextLoop cs0 (charIndicesA 0 (c :: c2 :: cs'')) st TokenValue.None).1 ≠
      TokenValue.None := by
  rw [charIndicesA, nextLoop_cons_none, if_neg (by simp)]
  by_cases hcl : classify c = TokenValue.None
  · rw [hcl]
    rw [charIndicesA, nextLoop_cons_none]
    have hw := utf8Width_pos c
    rw [if_pos (by omega)]
    simp
  · exact nextLoop_keep_ne_none cs0 _ _ _ hcl

lemma next_some_token_progress {l : Lexer} {t : Token} {l' : Lexer}
    (hpad : ∃ u, l.string = u ++ [' '])
    (h : Lexer.next l = some (some t, l')) :
    l.state.pos < l'.state.pos := by
  obtain ⟨u, hu⟩ := hpad
  rw [next_eq] at h
  cases h1 : byteDrop? l.string l.state.pos with
  | none =>
    rw [h1] at h
    simp at h
  | some cs1 =>
    rw [h1] at h
    simp only [] at h
    cases h2 : byteDrop? l.string (skipWsLoop (charIndices cs1) l.state false).pos with
    | none =>
      rw [h2] at h
      simp at h
    | some cs =>
      rw [h2] at h
      simp only [] at h
      have hmono : l.state.pos ≤ (skipWsLoop (charIndices cs1) l.state false).pos :=
        skipWsLoop_pos_mono _ _ _
      by_cases hr : (nextLoop cs (charIndices cs)
          (skipWsLoop (charIndices cs1) l.state false) TokenValue.None).1 = TokenValue.None
      · rw [if_pos hr] at h
        simp at h
      · rw [if_neg hr] at h
        simp only [Option.some.injEq, Prod.mk.injEq] at h
        obtain ⟨-, hl'⟩ := h
        have hws : cs = [] ∨ ∃ w, cs = w ++ [' '] := by
          by_cases hcs : cs = []
          · exact Or.inl hcs
          · obtain ⟨v, hv, -⟩ := byteDrop?_suffix _ _ _ h2
            exact Or.inr (suffix_ends_space hu hv hcs)
        have hprog := nextLoop_progress cs cs 0 (skipWsLoop (charIndices cs1) l.state false)
          TokenValue.None (by simp) hws (fun hv => absurd rfl hv)
        rw [← charIndices_eq] at hprog
        rcases hprog with ⟨hnone, -⟩ | hgt
        · exact absurd hnone hr
        · rw [← hl']
          simp only []
          omega

lemma singleton_ends_space {c : Char} (h : ∃ w, [c] = w ++ [' ']) : c = ' ' := by
  obtain ⟨w, hw⟩ := h
  cases w with
  | nil => simpa using hw
  | cons x w' => simp at hw

lemma next_ascii_spec {l : Lexer}
    (ha : ∀ c ∈ l.string, utf8Width c = 1)
    (hpad : ∃ u, l.string = u ++ [' '])
    (hpos : l.state.pos ≤ l.string.length) :
    ∃ ot l1, Lexer.next l = some (ot, l1) ∧ l1.string = l.string ∧ l1.filename = l.filename ∧
      ((ot = Option.none ∧ l1.state.pos = l.string.length) ∨
       (∃ t, ot = some t ∧ l.state.pos < l1.state.pos ∧ l1.state.pos ≤ l.string.length)) := by
  obtain ⟨u, hu⟩ := hpad
  have h1 : byteDrop? l.string l.state.pos = some (l.string.drop l.state.pos) :=
    byteDrop?_ascii _ _ ha hpos
  obtain ⟨k, hk, hkpos, hkdis⟩ := skipWsLoop_ascii (l.string.drop l.state.pos) 0 l.state false
  rw [List.length_drop] at hk hkdis
  set st1 := skipWsLoop (charIndicesA 0 (l.string.drop l.state.pos)) l.state false with hst1
  have hst1le : st1.pos ≤ l.string.length := by omega
  have h2 : byteDrop? l.string st1.pos = some (l.string.drop st1.pos) :=
    byteDrop?_ascii _ _ ha hst1le
  have hnexteq : Lexer.next l =
      some (if (nextLoop (l.string.drop st1.pos) (charIndices (l.string.drop st1.pos)) st1
            TokenValue.None).1 = TokenValue.None then Option.none
        else some ⟨st1.pos, st1.lino, st1.charpos,
          (nextLoop (l.string.drop st1.pos) (charIndices (l.string.drop st1.pos)) st1
            TokenValue.None).1⟩,
        { l with state := (nextLoop (l.string.drop st1.pos)
            (charIndices (l.string.drop st1.pos)) st1 TokenValue.None).2 }) := by
    rw [next_eq, h1]
    simp only []
    rw [charIndices_eq (l.string.drop l.state.pos), ← hst1, h2]
  rcases hkdis with hall | ⟨c, cs', hB, hc1, hc2, hc3⟩
  · have hcs : l.string.drop st1.pos = [] := by
      apply List.drop_eq_nil_of_le
      omega
    refine ⟨Option.none, { l with state := st1 }, ?_, rfl, rfl, Or.inl ⟨rfl, ?_⟩⟩
    · rw [hnexteq, hcs]
      rw [charIndices_eq]
      simp only [charIndicesA, nextLoop]
      rw [if_pos trivial]
    · simp only []
      omega
  · have hB' : l.string.drop st1.pos = c :: cs' := by
      rw [hkpos, ← List.drop_drop]
      exact hB
    obtain ⟨v, hsufeq, -⟩ := byteDrop?_suffix _ _ _ h2
    rw [hB'] at hsufeq
    cases cs' with
    | nil =>
      have hsp : c = ' ' :=
        singleton_ends_space (suffix_ends_space hu hsufeq (by simp))
      exact absurd hsp hc1
    | cons c2 cs'' =>
      rw [hB', charIndices_eq] at hnexteq
      have hne : (nextLoop (c :: c2 :: cs'') (charIndicesA 0 (c :: c2 :: cs'')) st1
          TokenValue.None).1 ≠ TokenValue.None :=
        nextLoop_two_ne_none (c :: c2 :: cs'') c c2 cs'' st1
      have hws : (c :: c2 :: cs'' : List Char) = [] ∨ ∃ w, c :: c2 :: cs'' = w ++ [' '] :=
        Or.inr (suffix_ends_space hu hsufeq (by simp))
      have hprog := nextLoop_progress (c :: c2 :: cs'') (c :: c2 :: cs'') 0 st1
        TokenValue.None (by simp) hws (fun hv => absurd rfl hv)
      rcases hprog with ⟨hn, -⟩ | hgt
      · exact absurd hn hne
      · have hple := nextLoop_pos_le (c :: c2 :: cs'') (c :: c2 :: cs'') 0 st1
          TokenValue.None (by simp)
        have hascii2 : ∀ d ∈ (c :: c2 :: cs'' : List Char), utf8Width d = 1 := by
          intro d hd
          exact ha d (by rw [hsufeq]; exact List.mem_append_right v hd)
        rw [byteLen_ascii hascii2] at hple
        have hlen2 : (c :: c2 :: cs'' : List Char).length = l.string.length - st1.pos := by
          rw [← hB', List.length_drop]
        rw [hlen2] at hple
        refine ⟨some ⟨st1.pos, st1.lino, st1.charpos,
            (nextLoop (c :: c2 :: cs'') (charIndicesA 0 (c :: c2 :: cs'')) st1
              TokenValue.None).1⟩,
          { l with state := (nextLoop (c :: c2 :: cs'') (charIndicesA 0 (c :: c2 :: cs'')) st1
              TokenValue.None).2 }, ?_, rfl, rfl, Or.inr ⟨_, rfl, ?_, ?_⟩⟩
        · rw [hnexteq, if_neg hne]
        · simp only []
          omega
        · simp only []
          omega

lemma run_ascii_done :
    ∀ (fuel : Nat) (l : Lexer),
      (∀ c ∈ l.string, utf8Width c = 1) → (∃ u, l.string = u ++ [' ']) →
      l.state.pos ≤ l.string.length → l.string.length - l.state.pos < fuel →
      ∃ ts lf, run fuel l = RunResult.done ts lf ∧ lf.string = l.string ∧
        lf.state.pos = l.string.length := by
  intro fuel
  induction fuel with
  | zero =>
    intro l _ _ _ hf
    omega
  | succ n ih =>
    intro l ha hpad hpos hf
    obtain ⟨ot, l1, hnext, hstr, hfn, hcase⟩ := next_ascii_spec ha hpad hpos
    rcases hcase with ⟨rfl, hend⟩ | ⟨t, rfl, hlt, hle⟩
    · refine ⟨[], l1, ?_, hstr, hend⟩
      simp only [run, hnext]
    · have hrec := ih l1 (by rw [hstr]; exact ha) (by rw [hstr]; exact hpad)
        (by rw [hstr]; exact hle) (by rw [hstr]; omega)
      obtain ⟨ts, lf, hrun, hlfstr, hlfpos⟩ := hrec
      refine ⟨t :: ts, lf, ?_, by rw [hlfstr, hstr], by rw [hstr] at hlfpos; exact hlfpos⟩
      simp only [run, hnext, hrun]

lemma Lexer_ext {a b : Lexer} (h1 : a.filename = b.filename) (h2 : a.state = b.state)
    (h3 : a.string = b.string) : a = b := by
  cases a
  cases b
  simp_all

lemma finishLiteral_eq {ds : List Char} (hne : ds ≠ [])
    (hds : ∀ c ∈ ds, isOctalDigit c = true) :
    finishLiteral ds =
      (if octalVal ds < 512 then TokenValue.U9 (octalVal ds)
       else if octalVal ds < 4096 then TokenValue.U12 (octalVal ds)
       else TokenValue.Err (invalid12Msg ds)) := by
  unfold finishLiteral fromStrRadix8
  rw [if_neg hne, if_pos (List.all_eq_true.mpr hds)]
  by_cases h : octalVal ds < 65536
  · rw [if_pos h]
  · rw [if_neg h]
    rw [if_neg (by omega), if_neg (by omega)]

lemma nextLoop_break (cs0 : List Char) (i : Nat) (c : Char) (rest : List (Nat × Char))
    (st : LexerState) (v : TokenValue)
    (hv : v = TokenValue.LParen ∨ v = TokenValue.RParen ∨ v = TokenValue.Colon ∨
      v = TokenValue.Comma ∨ v = TokenValue.LT ∨ v = TokenValue.GT ∨ v = TokenValue.Dot) :
    nextLoop cs0 ((i, c) :: rest) st v = (v, advance st i) := by
  rcases hv with rfl | rfl | rfl | rfl | rfl | rfl | rfl <;> simp [nextLoop]

lemma next_single (l : Lexer) (c c2 : Char) (rest : List Char)
    (hdrop : byteDrop? l.string l.state.pos = some (c :: c2 :: rest))
    (hc : c = '(' ∨ c = ')' ∨ c = ':' ∨ c = ',' ∨ c = '<' ∨ c = '>' ∨ c = '.') :
    Lexer.next l = some (some ⟨l.state.pos, l.state.lino, l.state.charpos, classify c⟩,
      { l with state := ⟨l.state.pos + 1, l.state.lino, l.state.charpos + 1⟩ }) := by
  have h1 : c ≠ ' ' := by rcases hc with rfl | rfl | rfl | rfl | rfl | rfl | rfl <;> decide
  have h2 : c ≠ '\t' := by rcases hc with rfl | rfl | rfl | rfl | rfl | rfl | rfl <;> decide
  have h3 : c ≠ ';' := by rcases hc with rfl | rfl | rfl | rfl | rfl | rfl | rfl <;> decide
  have h4 : c ≠ '\n' := by rcases hc with rfl | rfl | rfl | rfl | rfl | rfl | rfl <;> decide
  have hw : utf8Width c = 1 := by
    rcases hc with rfl | rfl | rfl | rfl | rfl | rfl | rfl <;> decide
  have hne : classify c ≠ TokenValue.Newline := by
    rcases hc with rfl | rfl | rfl | rfl | rfl | rfl | rfl <;> decide
  have hnn : classify c ≠ TokenValue.None := by
    rcases hc with rfl | rfl | rfl | rfl | rfl | rfl | rfl <;> decide
  have hbr : classify c = TokenValue.LParen ∨ classify c = TokenValue.RParen ∨
      classify c = TokenValue.Colon ∨ classify c = TokenValue.Comma ∨
      classify c = TokenValue.LT ∨ classify c = TokenValue.GT ∨
      classify c = TokenValue.Dot := by
    rcases hc with rfl | rfl | rfl | rfl | rfl | rfl | rfl
    · exact Or.inl (by decide)
    · exact Or.inr (Or.inl (by decide))
    · exact Or.inr (Or.inr (Or.inl (by decide)))
    · exact Or.inr (Or.inr (Or.inr (Or.inl (by decide))))
    · exact Or.inr (Or.inr (Or.inr (Or.inr (Or.inl (by decide)))))
    · exact Or.inr (Or.inr (Or.inr (Or.inr (Or.inr (Or.inl (by decide))))))
    · exact Or.inr (Or.inr (Or.inr (Or.inr (Or.inr (Or.inr (by decide))))))
  rw [next_eq_of_stop l c (c2 :: rest) hdrop h1 h2 h3]
  have hrun : nextLoop (c :: c2 :: rest) (charIndices (c :: c2 :: rest)) l.state
      TokenValue.None =
      (classify c, ⟨l.state.pos + 1, l.state.lino, l.state.charpos + 1⟩) := by
    rw [charIndices, charIndicesA, nextLoop_cons_none]
    rw [if_neg (by simp), if_neg h4]
    rw [postStep_of_ne hne, hw]
    rw [charIndicesA]
    rw [nextLoop_break _ _ _ _ _ _ hbr]
    rfl
  rw [hrun, if_neg hnn]

lemma next_invalid (l : Lexer) (c c2 : Char) (rest : List Char)
    (hdrop : byteDrop? l.string l.state.pos = some (c :: c2 :: rest))
    (h1 : c ≠ ' ') (h2 : c ≠ '\t') (h3 : c ≠ ';')
    (hcl : classify c = TokenValue.None) :
    Lexer.next l = some (some ⟨l.state.pos, l.state.lino, l.state.charpos,
        TokenValue.Err (invalidTokenMsg [c])⟩,
      { l with state := ⟨l.state.pos + utf8Width c, l.state.lino, l.state.charpos + 1⟩ }) := by
  have h4 : c ≠ '\n' := fun h => by
    rw [h] at hcl
    exact absurd hcl (by decide)
  have hwpos := utf8Width_pos c
  rw [next_eq_of_stop l c (c2 :: rest) hdrop h1 h2 h3]
  have htake : byteTakeD (c :: c2 :: rest) (utf8Width c) = [c] := by
    unfold byteTakeD
    rw [if_pos (le_refl _), Nat.sub_self, byteTakeD_zero]
  have hrun : nextLoop (c :: c2 :: rest) (charIndices (c :: c2 :: rest)) l.state
      TokenValue.None =
      (TokenValue.Err (invalidTokenMsg [c]),
        ⟨l.state.pos + utf8Width c, l.state.lino, l.state.charpos + 1⟩) := by
    rw [charIndices, charIndicesA, nextLoop_cons_none]
    rw [if_neg (by simp), hcl, if_neg h4]
    rw [postStep_of_ne (by decide)]
    rw [charIndicesA, nextLoop_cons_none]
    rw [if_pos (by omega)]
    simp only [Nat.zero_add]
    rw [htake]
    rfl
  rw [hrun, if_neg (by simp)]

/-! ### The claims -/

/-- Claim C1: for every maximal run of octal digits scanned as a literal,
`next` selects the token by the magnitude of the base-8 value `v` of the
run: `v < 512` gives the nine-bit literal `U9 v`, otherwise `v < 4096`
gives the twelve-bit literal `U12 v`, and otherwise the token is the error
`'<digits>' is an invalid 12 bit integer`. -/
theorem octal_literal_width_selection (name ds rest : List Char)
    (hne : ds ≠ []) (hds : ∀ c ∈ ds, isOctalDigit c = true)
    (hrest : rest = [] ∨ ∃ t rs, rest = t :: rs ∧ isOctalDigit t = false) :
    ∃ l', Lexer.next (Lexer.new name (ds ++ rest)) =
      some (some ⟨0, 1, 0,
        if octalVal ds < 512 then TokenValue.U9 (octalVal ds)
        else if octalVal ds < 4096 then TokenValue.U12 (octalVal ds)
        else TokenValue.Err (invalid12Msg ds)⟩, l') := by
  obtain ⟨d, ds', rfl⟩ : ∃ d ds', ds = d :: ds' := by
    cases ds with
    | nil => exact absurd rfl hne
    | cons d ds' => exact ⟨d, ds', rfl⟩
  rw [← finishLiteral_eq hne hds]
  rcases hrest with rfl | ⟨t, rs, rfl, ht⟩
  · have hdrop : byteDrop? (Lexer.new name ((d :: ds') ++ [])).string
        (Lexer.new name ((d :: ds') ++ [])).state.pos =
        some (d :: (ds' ++ ' ' :: [])) := by
      simp [Lexer.new]
    have h := next_octal (Lexer.new name ((d :: ds') ++ [])) d ds' ' ' [] hdrop
      (hds d (by simp)) (fun e he => hds e (by simp [he])) (by decide)
    exact ⟨_, h⟩
  · have hdrop : byteDrop? (Lexer.new name ((d :: ds') ++ t :: rs)).string
        (Lexer.new name ((d :: ds') ++ t :: rs)).state.pos =
        some (d :: (ds' ++ t :: (rs ++ [' ']))) := by
      simp [Lexer.new]
    have h := next_octal (Lexer.new name ((d :: ds') ++ t :: rs)) d ds' t (rs ++ [' ']) hdrop
      (hds d (by simp)) (fun e he => hds e (by simp [he])) ht
    exact ⟨_, h⟩

/-- Witness for C1 at the four documented runs: `777` is a nine-bit literal
511, `1000` and `7777` are twelve-bit literals 512 and 4095, and `10000`
is the invalid-12-bit-integer error. -/
theorem octal_literal_width_selection_witness :
    (∃ l', Lexer.next (Lexer.new [] ['7', '7', '7']) =
      some (some ⟨0, 1, 0, TokenValue.U9 511⟩, l')) ∧
    (∃ l', Lexer.next (Lexer.new [] ['1', '0', '0', '0']) =
      some (some ⟨0, 1, 0, TokenValue.U12 512⟩, l')) ∧
    (∃ l', Lexer.next (Lexer.new [] ['7', '7', '7', '7']) =
      some (some ⟨0, 1, 0, TokenValue.U12 4095⟩, l')) ∧
    (∃ l', Lexer.next (Lexer.new [] ['1', '0', '0', '0', '0']) =
      some (some ⟨0, 1, 0, TokenValue.Err (invalid12Msg ['1', '0', '0', '0', '0'])⟩, l')) := by
  refine ⟨?_, ?_, ?_, ?_⟩
  · obtain ⟨l', h⟩ := octal_literal_width_selection [] ['7', '7', '7'] []
      (by decide) (by decide) (Or.inl rfl)
    rw [show (if octalVal ['7', '7', '7'] < 512 then TokenValue.U9 (octalVal ['7', '7', '7'])
      else if octalVal ['7', '7', '7'] < 4096 then TokenValue.U12 (octalVal ['7', '7', '7'])
      else TokenValue.Err (invalid12Msg ['7', '7', '7'])) = TokenValue.U9 511 from by decide] at h
    exact ⟨l', h⟩
  · obtain ⟨l', h⟩ := octal_literal_width_selection [] ['1', '0', '0', '0'] []
      (by decide) (by decide) (Or.inl rfl)
    rw [show (if octalVal ['1', '0', '0', '0'] < 512 then TokenValue.U9 (octalVal ['1', '0', '0', '0'])
      else if octalVal ['1', '0', '0', '0'] < 4096 then TokenValue.U12 (octalVal ['1', '0', '0', '0'])
      else TokenValue.Err (invalid12Msg ['1', '0', '0', '0'])) = TokenValue.U12 512 from by decide] at h
    exact ⟨l', h⟩
  · obtain ⟨l', h⟩ := octal_literal_width_selection [] ['7', '7', '7', '7'] []
      (by decide) (by decide) (Or.inl rfl)
    rw [show (if octalVal ['7', '7', '7', '7'] < 512 then TokenValue.U9 (octalVal ['7', '7', '7', '7'])
      else if octalVal ['7', '7', '7', '7'] < 4096 then TokenValue.U12 (octalVal ['7', '7', '7', '7'])
      else TokenValue.Err (invalid12Msg ['7', '7', '7', '7'])) = TokenValue.U12 4095 from by decide] at h
    exact ⟨l', h⟩
  · obtain ⟨l', h⟩ := octal_literal_width_selection [] ['1', '0', '0', '0', '0'] []
      (by decide) (by decide) (Or.inl rfl)
    rw [show (if octalVal ['1', '0', '0', '0', '0'] < 512 then
        TokenValue.U9 (octalVal ['1', '0', '0', '0', '0'])
      else if octalVal ['1', '0', '0', '0', '0'] < 4096 then
        TokenValue.U12 (octalVal ['1', '0', '0', '0', '0'])
      else TokenValue.Err (invalid12Msg ['1', '0', '0', '0', '0'])) =
      TokenValue.Err (invalid12Msg ['1', '0', '0', '0', '0']) from by decide] at h
    exact ⟨l', h⟩

/-- Claim C2 (refuted, code bug): the lexer is supposed never to panic, but
scanning an input whose comment contains multi-byte characters panics.
`skip_whitespace` advances `pos` by one byte per consumed character while the
characters of a comment may be wider, leaving `pos` inside a character; the
subsequent slice `self.string[self.state.pos..]` in `next` panics.  The input
here is a semicolon followed by two copies of U+00E9 (two UTF-8 bytes each):
the model's `Option.none` result is exactly that panic. -/
theorem lexer_panics_on_multibyte_comment :
    Lexer.next (Lexer.new [] [';', Char.ofNat 233, Char.ofNat 233]) = Option.none := by
  decide

/-- Claim C3: `peek` returns exactly the token the immediately following
`next` returns (same variant, payload and recorded position), does not
mutate the externally observable cursor (the lexer after `peek` equals the
lexer before), and is therefore idempotent. -/
theorem peek_next_agree (l : Lexer) (t : Option Token) (l2 : Lexer)
    (h : Lexer.peek l = some (t, l2)) :
    l2 = l ∧ (∃ l', Lexer.next l = some (t, l')) ∧ Lexer.peek l2 = Lexer.peek l := by
  unfold Lexer.peek at h
  cases hn : Lexer.next l with
  | none =>
    rw [hn] at h
    simp at h
  | some r =>
    obtain ⟨t', l1⟩ := r
    rw [hn] at h
    simp only [Option.some.injEq, Prod.mk.injEq] at h
    obtain ⟨rfl, hl2⟩ := h
    obtain ⟨hstr, hfn⟩ := next_fields hn
    have hl2l : l2 = l := by
      rw [← hl2]
      exact Lexer_ext hfn rfl hstr
    exact ⟨hl2l, ⟨l1, rfl⟩, by rw [hl2l]⟩


/-- Witness for C3 on the input `a`. -/
theorem peek_next_agree_witness :
    Lexer.new [] ['a'] = Lexer.new [] ['a'] ∧
    (∃ l', Lexer.next (Lexer.new [] ['a']) =
      some (some ⟨0, 1, 0, TokenValue.Symbol ['a']⟩, l')) ∧
    Lexer.peek (Lexer.new [] ['a']) = Lexer.peek (Lexer.new [] ['a']) :=
  peek_next_agree (Lexer.new [] ['a']) (some ⟨0, 1, 0, TokenValue.Symbol ['a']⟩)
    (Lexer.new [] ['a']) (by decide)

/-- Claim C4: whenever `next` returns a token (an `Error` token included),
the byte offset of the cursor after the call is strictly greater than
before: the lexer always makes forward progress.  The hypothesis records
the constructor's sentinel padding of the buffer. -/
theorem next_forward_progress (l : Lexer) (t : Token) (l' : Lexer)
    (hpad : ∃ u, l.string = u ++ [' '])
    (h : Lexer.next l = some (some t, l')) :
    l.state.pos < l'.state.pos :=
  next_some_token_progress hpad h

/-- Witness for C4 on the input `(`. -/
theorem next_forward_progress_witness :
    (Lexer.new [] ['(']).state.pos <
      ({ Lexer.new [] ['('] with state := ⟨1, 1, 1⟩ } : Lexer).state.pos :=
  next_forward_progress (Lexer.new [] ['(']) ⟨0, 1, 0, TokenValue.LParen⟩
    { Lexer.new [] ['('] with state := ⟨1, 1, 1⟩ } ⟨['('], rfl⟩ (by decide)

/-- Claim C5: a newline outside a comment is returned as its own `Newline`
token, incrementing the line counter and resetting the column to 0 at
classification time; a newline terminating a semicolon comment is swallowed
by the whitespace skipper and produces no token.  In particular
`; comment\nfoo` yields `Symbol foo` at line 2 column 0 as its first token,
while `\nfoo` yields a `Newline` token and then `Symbol foo`. -/
theorem newline_token_asymmetry (l : Lexer) (c2 : Char) (rest : List Char)
    (hdrop : byteDrop? l.string l.state.pos = some ('\n' :: c2 :: rest)) :
    Lexer.next l = some (some ⟨l.state.pos, l.state.lino, l.state.charpos, TokenValue.Newline⟩,
      { l with state := ⟨l.state.pos + 1, l.state.lino + 1, 0⟩ }) ∧
    Lexer.next (Lexer.new []
        [';', ' ', 'c', 'o', 'm', 'm', 'e', 'n', 't', '\n', 'f', 'o', 'o']) =
      some (some ⟨10, 2, 0, TokenValue.Symbol ['f', 'o', 'o']⟩,
        { Lexer.new [] [';', ' ', 'c', 'o', 'm', 'm', 'e', 'n', 't', '\n', 'f', 'o', 'o'] with
            state := ⟨13, 2, 3⟩ }) ∧
    Lexer.next (Lexer.new [] ['\n', 'f', 'o', 'o']) =
      some (some ⟨0, 1, 0, TokenValue.Newline⟩,
        { Lexer.new [] ['\n', 'f', 'o', 'o'] with state := ⟨1, 2, 0⟩ }) ∧
    Lexer.next ({ Lexer.new [] ['\n', 'f', 'o', 'o'] with state := ⟨1, 2, 0⟩ } : Lexer) =
      some (some ⟨1, 2, 0, TokenValue.Symbol ['f', 'o', 'o']⟩,
        { Lexer.new [] ['\n', 'f', 'o', 'o'] with state := ⟨4, 2, 3⟩ }) :=
  ⟨next_newline l c2 rest hdrop, by decide, by decide, by decide⟩

/-- Witness for C5 on the input consisting of a bare newline. -/
theorem newline_token_asymmetry_witness :
    Lexer.next (Lexer.new [] ['\n']) =
      some (some ⟨0, 1, 0, TokenValue.Newline⟩,
        { Lexer.new [] ['\n'] with state := ⟨1, 2, 0⟩ }) :=
  (newline_token_asymmetry (Lexer.new [] ['\n']) ' ' [] (by decide)).1

/-- Claim C6: scanning a double-quoted string appends every character before
the closing quote to the payload; with a closing quote the token is a
`String` holding exactly the characters strictly between the two quotes and
the cursor moves past the closing quote; reaching the last character of the
sentinel-padded buffer without a closing quote instead gives an `Err` token
whose message is the raw unterminated span, so a lone `"hello` yields an
error containing the opening quote and `hello`. -/
theorem string_literal_scan (l : Lexer) (cs rest : List Char) (l2 : Lexer) (cs2 : List Char)
    (hdrop : byteDrop? l.string l.state.pos = some ('"' :: (cs ++ '"' :: rest)))
    (hq : '"' ∉ cs)
    (hdrop2 : byteDrop? l2.string l2.state.pos = some ('"' :: (cs2 ++ [' '])))
    (hq2 : '"' ∉ cs2) :
    Lexer.next l = some (some ⟨l.state.pos, l.state.lino, l.state.charpos,
        TokenValue.String cs⟩,
      { l with state := ⟨l.state.pos + (1 + byteLen cs + 1), l.state.lino,
          l.state.charpos + 1 + cs.length⟩ }) ∧
    Lexer.next l2 = some (some ⟨l2.state.pos, l2.state.lino, l2.state.charpos,
        TokenValue.Err ('"' :: cs2)⟩,
      { l2 with state := ⟨l2.state.pos + (1 + byteLen cs2), l2.state.lino,
          l2.state.charpos + 1 + cs2.length⟩ }) ∧
    Lexer.next (Lexer.new [] ['"', 'h', 'e', 'l', 'l', 'o']) =
      some (some ⟨0, 1, 0, TokenValue.Err ['"', 'h', 'e', 'l', 'l', 'o']⟩,
        { Lexer.new [] ['"', 'h', 'e', 'l', 'l', 'o'] with state := ⟨6, 1, 6⟩ }) :=
  ⟨next_string_close l cs rest hdrop hq,
   next_string_unterm l2 cs2 ' ' hdrop2 hq2 (by decide) (by decide),
   by decide⟩

/-- Witness for C6: `"a"` scans to the string literal `a`; the unterminated
`"hi` scans to the error `"hi`. -/
theorem string_literal_scan_witness :
    Lexer.next (Lexer.new [] ['"', 'a', '"']) =
      some (some ⟨0, 1, 0, TokenValue.String ['a']⟩,
        { Lexer.new [] ['"', 'a', '"'] with state := ⟨0 + (1 + byteLen ['a'] + 1), 1,
            0 + 1 + (['a'] : List Char).length⟩ }) ∧
    Lexer.next (Lexer.new [] ['"', 'h', 'i']) =
      some (some ⟨0, 1, 0, TokenValue.Err ['"', 'h', 'i']⟩,
        { Lexer.new [] ['"', 'h', 'i'] with state := ⟨0 + (1 + byteLen ['h', 'i']), 1,
            0 + 1 + (['h', 'i'] : List Char).length⟩ }) ∧
    Lexer.next (Lexer.new [] ['"', 'h', 'e', 'l', 'l', 'o']) =
      some (some ⟨0, 1, 0, TokenValue.Err ['"', 'h', 'e', 'l', 'l', 'o']⟩,
        { Lexer.new [] ['"', 'h', 'e', 'l', 'l', 'o'] with state := ⟨6, 1, 6⟩ }) :=
  string_literal_scan (Lexer.new [] ['"', 'a', '"']) ['a'] [' '] (Lexer.new [] ['"', 'h', 'i'])
    ['h', 'i'] (by decide) (by decide) (by decide) (by decide)

/-- Claim C7 (counterexample): the column advance of a call is claimed to
equal the number of characters consumed for every non-`Newline` token,
including `String` literals.  Scanning `"a"` consumes three characters (both
quote delimiters included: the byte offset moves from 0 to 3), but the
column advances only from 0 to 2: the closing quote is consumed at a
`break` that skips the column update. -/
theorem column_advance_counterexample :
    Lexer.next (Lexer.new [] ['"', 'a', '"']) =
      some (some ⟨0, 1, 0, TokenValue.String ['a']⟩,
        { Lexer.new [] ['"', 'a', '"'] with state := ⟨3, 1, 2⟩ }) ∧
    ¬ ((2 : Nat) - 0 = 3 - 0) :=
  ⟨by decide, by decide⟩

/-- Claim C7 as amended: for every token produced by `next`, the column
increments by one for each character consumed while scanning that token,
except when the finalized token is `Newline` (whose line/column reset
already happened at classification time and is not adjusted again), and
except the closing quote of a `String` literal, which is consumed at a
`break` that skips the column update, so a `String` token's column advance
is one less than its consumed characters.  Stated over all seven token
scenarios: a symbol run consumes `(c :: cs).length` characters and advances
the column by exactly that; an octal literal consumes `(d :: ds).length`
and advances by that; a punctuation token consumes one character and
advances by one; a `Newline` token resets the column to 0; an
invalid-character error consumes one character and advances by one; a
terminated string consumes `cs6.length + 2` characters (both quotes) but
advances by `cs6.length + 2 - 1`; an unterminated string consumes
`('"' :: cs7).length` characters and advances by that. -/
theorem column_advance_amended
    (l1 : Lexer) (c : Char) (cs : List Char) (t : Char) (rest1 : List Char)
    (l2 : Lexer) (d : Char) (ds : List Char) (t2 : Char) (rest2 : List Char)
    (l3 : Lexer) (p c3 : Char) (rest3 : List Char)
    (l4 : Lexer) (c4 : Char) (rest4 : List Char)
    (l5 : Lexer) (e c5 : Char) (rest5 : List Char)
    (l6 : Lexer) (cs6 rest6 : List Char)
    (l7 : Lexer) (cs7 : List Char)
    (hdrop1 : byteDrop? l1.string l1.state.pos = some (c :: (cs ++ t :: rest1)))
    (hc : isSymbolStart c = true) (hcs : ∀ x ∈ cs, isSymbolChar x = true)
    (ht : isSymbolChar t = false)
    (hdrop2 : byteDrop? l2.string l2.state.pos = some (d :: (ds ++ t2 :: rest2)))
    (hd : isOctalDigit d = true) (hds : ∀ x ∈ ds, isOctalDigit x = true)
    (ht2 : isOctalDigit t2 = false)
    (hdrop3 : byteDrop? l3.string l3.state.pos = some (p :: c3 :: rest3))
    (hp : p = '(' ∨ p = ')' ∨ p = ':' ∨ p = ',' ∨ p = '<' ∨ p = '>' ∨ p = '.')
    (hdrop4 : byteDrop? l4.string l4.state.pos = some ('\n' :: c4 :: rest4))
    (hdrop5 : byteDrop? l5.string l5.state.pos = some (e :: c5 :: rest5))
    (he1 : e ≠ ' ') (he2 : e ≠ '\t') (he3 : e ≠ ';')
    (hecl : classify e = TokenValue.None)
    (hdrop6 : byteDrop? l6.string l6.state.pos = some ('"' :: (cs6 ++ '"' :: rest6)))
    (hq6 : '"' ∉ cs6)
    (hdrop7 : byteDrop? l7.string l7.state.pos = some ('"' :: (cs7 ++ [' '])))
    (hq7 : '"' ∉ cs7) :
    Lexer.next l1 = some (some ⟨l1.state.pos, l1.state.lino, l1.state.charpos,
        TokenValue.Symbol (c :: cs)⟩,
      { l1 with state := ⟨l1.state.pos + (1 + byteLen cs), l1.state.lino,
          l1.state.charpos + (c :: cs).length⟩ }) ∧
    Lexer.next l2 = some (some ⟨l2.state.pos, l2.state.lino, l2.state.charpos,
        finishLiteral (d :: ds)⟩,
      { l2 with state := ⟨l2.state.pos + (1 + byteLen ds), l2.state.lino,
          l2.state.charpos + (d :: ds).length⟩ }) ∧
    Lexer.next l3 = some (some ⟨l3.state.pos, l3.state.lino, l3.state.charpos, classify p⟩,
      { l3 with state := ⟨l3.state.pos + 1, l3.state.lino, l3.state.charpos + 1⟩ }) ∧
    Lexer.next l4 = some (some ⟨l4.state.pos, l4.state.lino, l4.state.charpos,
        TokenValue.Newline⟩,
      { l4 with state := ⟨l4.state.pos + 1, l4.state.lino + 1, 0⟩ }) ∧
    Lexer.next l5 = some (some ⟨l5.state.pos, l5.state.lino, l5.state.charpos,
        TokenValue.Err (invalidTokenMsg [e])⟩,
      { l5 with state := ⟨l5.state.pos + utf8Width e, l5.state.lino,
          l5.state.charpos + 1⟩ }) ∧
    Lexer.next l6 = some (some ⟨l6.state.pos, l6.state.lino, l6.state.charpos,
        TokenValue.String cs6⟩,
      { l6 with state := ⟨l6.state.pos + (1 + byteLen cs6 + 1), l6.state.lino,
          l6.state.charpos + (cs6.length + 2 - 1)⟩ }) ∧
    Lexer.next l7 = some (some ⟨l7.state.pos, l7.state.lino, l7.state.charpos,
        TokenValue.Err ('"' :: cs7)⟩,
      { l7 with state := ⟨l7.state.pos + (1 + byteLen cs7), l7.state.lino,
          l7.state.charpos + ('"' :: cs7).length⟩ }) := by
  refine ⟨?_, ?_, next_single l3 p c3 rest3 hdrop3 hp,
    next_newline l4 c4 rest4 hdrop4,
    next_invalid l5 e c5 rest5 hdrop5 he1 he2 he3 hecl, ?_, ?_⟩
  · have h := next_symbol l1 c cs t rest1 hdrop1 hc hcs ht
    have eq1 : (⟨l1.state.pos + (1 + byteLen cs), l1.state.lino,
        l1.state.charpos + (c :: cs).length⟩ : LexerState) =
        ⟨l1.state.pos + (1 + byteLen cs), l1.state.lino, l1.state.charpos + 1 + cs.length⟩ := by
      simp only [List.length_cons]
      congr 1
      omega
    rw [eq1]
    exact h
  · have h := next_octal l2 d ds t2 rest2 hdrop2 hd hds ht2
    have eq2 : (⟨l2.state.pos + (1 + byteLen ds), l2.state.lino,
        l2.state.charpos + (d :: ds).length⟩ : LexerState) =
        ⟨l2.state.pos + (1 + byteLen ds), l2.state.lino, l2.state.charpos + 1 + ds.length⟩ := by
      simp only [List.length_cons]
      congr 1
      omega
    rw [eq2]
    exact h
  · have h := next_string_close l6 cs6 rest6 hdrop6 hq6
    have eq6 : (⟨l6.state.pos + (1 + byteLen cs6 + 1), l6.state.lino,
        l6.state.charpos + (cs6.length + 2 - 1)⟩ : LexerState) =
        ⟨l6.state.pos + (1 + byteLen cs6 + 1), l6.state.lino,
          l6.state.charpos + 1 + cs6.length⟩ := by
      congr 1
      omega
    rw [eq6]
    exact h
  · have h := next_string_unterm l7 cs7 ' ' hdrop7 hq7 (by decide) (by decide)
    have eq7 : (⟨l7.state.pos + (1 + byteLen cs7), l7.state.lino,
        l7.state.charpos + ('"' :: cs7).length⟩ : LexerState) =
        ⟨l7.state.pos + (1 + byteLen cs7), l7.state.lino,
          l7.state.charpos + 1 + cs7.length⟩ := by
      simp only [List.length_cons]
      congr 1
      omega
    rw [eq7]
    exact h

/-- Witness for the amended C7, one concrete input per token scenario: the
symbol `ab`, the octal literal `12`, the punctuation `(`, a bare newline,
the invalid character `#`, the terminated string `"x"` and the unterminated
string `"hi`. -/
theorem column_advance_amended_witness :
    Lexer.next (Lexer.new [] ['a', 'b']) =
      some (some ⟨0, 1, 0, TokenValue.Symbol ['a', 'b']⟩,
        { Lexer.new [] ['a', 'b'] with state := ⟨0 + (1 + byteLen ['b']), 1,
            0 + (['a', 'b'] : List Char).length⟩ }) ∧
    Lexer.next (Lexer.new [] ['1', '2']) =
      some (some ⟨0, 1, 0, finishLiteral ['1', '2']⟩,
        { Lexer.new [] ['1', '2'] with state := ⟨0 + (1 + byteLen ['2']), 1,
            0 + (['1', '2'] : List Char).length⟩ }) ∧
    Lexer.next (Lexer.new [] ['(']) =
      some (some ⟨0, 1, 0, classify '('⟩,
        { Lexer.new [] ['('] with state := ⟨0 + 1, 1, 0 + 1⟩ }) ∧
    Lexer.next (Lexer.new [] ['\n']) =
      some (some ⟨0, 1, 0, TokenValue.Newline⟩,
        { Lexer.new [] ['\n'] with state := ⟨0 + 1, 1 + 1, 0⟩ }) ∧
    Lexer.next (Lexer.new [] ['#']) =
      some (some ⟨0, 1, 0, TokenValue.Err (invalidTokenMsg ['#'])⟩,
        { Lexer.new [] ['#'] with state := ⟨0 + utf8Width '#', 1, 0 + 1⟩ }) ∧
    Lexer.next (Lexer.new [] ['"', 'x', '"']) =
      some (some ⟨0, 1, 0, TokenValue.String ['x']⟩,
        { Lexer.new [] ['"', 'x', '"'] with state := ⟨0 + (1 + byteLen ['x'] + 1), 1,
            0 + ((['x'] : List Char).length + 2 - 1)⟩ }) ∧
    Lexer.next (Lexer.new [] ['"', 'h', 'i']) =
      some (some ⟨0, 1, 0, TokenValue.Err ['"', 'h', 'i']⟩,
        { Lexer.new [] ['"', 'h', 'i'] with state := ⟨0 + (1 + byteLen ['h', 'i']), 1,
            0 + (('"' :: ['h', 'i'] : List Char)).length⟩ }) :=
  column_advance_amended
    (Lexer.new [] ['a', 'b']) 'a' ['b'] ' ' []
    (Lexer.new [] ['1', '2']) '1' ['2'] ' ' []
    (Lexer.new [] ['(']) '(' ' ' []
    (Lexer.new [] ['\n']) ' ' []
    (Lexer.new [] ['#']) '#' ' ' []
    (Lexer.new [] ['"', 'x', '"']) ['x'] [' ']
    (Lexer.new [] ['"', 'h', 'i']) ['h', 'i']
    (by decide) (by decide) (by decide) (by decide)
    (by decide) (by decide) (by decide) (by decide)
    (by decide) (by decide)
    (by decide)
    (by decide) (by decide) (by decide) (by decide) (by decide)
    (by decide) (by decide)
    (by decide) (by decide)

/-- Claim C8 (refuted, code bug): for inputs consisting solely of whitespace
and semicolon comments, repeated `next` calls are supposed to reach
exhaustion and never return an error.  A comment whose body holds multi-byte
characters (here two copies of U+00E9) makes the very first `next` call
panic on a non-boundary slice instead, so the run never reaches exhaustion:
the byte-per-character cursor bug of `skip_whitespace` desynchronises `pos`
from the character boundaries. -/
theorem comment_multibyte_run_panics :
    run 5 (Lexer.new [] [';', Char.ofNat 233, Char.ofNat 233]) = RunResult.panic := by
  decide

/-- Claim C9 (counterexample): summing the consumed byte spans across all
tokens is claimed to equal the unpadded input length.  For the input `a `
(one symbol followed by one trailing space) there is exactly one token whose
consumed span is 1 byte, while the input is 2 bytes long: the trailing
whitespace and the sentinel are consumed by the exhausting call, which
produces no token. -/
theorem span_sum_counterexample :
    runSpans 5 (Lexer.new [] ['a', ' ']) =
      some ([1], { Lexer.new [] ['a', ' '] with state := ⟨3, 1, 3⟩ }) ∧
    ¬ (([1] : List Nat).sum = (['a', ' '] : List Char).length) :=
  ⟨by decide, by decide⟩

/-- Claim C9 as amended: for every input of single-byte characters, repeated
`next` calls reach exhaustion, and the total cursor movement — the sum of
the consumed byte spans of all the calls, the final exhausting call
included, starting from byte offset 0 — is the padded length, one more than
the original input length (the synthetic trailing space is consumed too).
The sum over the token-producing calls alone can fall short of the input
length, as the counterexample shows. -/
theorem lex_total_span_amended (f s : List Char) (ha : ∀ c ∈ s, utf8Width c = 1) :
    ∃ ts lf, run (s.length + 2) (Lexer.new f s) = RunResult.done ts lf ∧
      (Lexer.new f s).state.pos = 0 ∧ lf.state.pos = s.length + 1 := by
  have hpad : ∃ u, (Lexer.new f s).string = u ++ [' '] := ⟨s, rfl⟩
  have ha' : ∀ c ∈ (Lexer.new f s).string, utf8Width c = 1 := by
    intro c hc
    rcases List.mem_append.mp hc with h | h
    · exact ha c h
    · simp only [List.mem_singleton] at h
      subst h
      decide
  have hlen : (Lexer.new f s).string.length = s.length + 1 := by
    simp [Lexer.new]
  have hpos0 : (Lexer.new f s).state.pos = 0 := rfl
  obtain ⟨ts, lf, hrun, -, hpos⟩ := run_ascii_done (s.length + 2) (Lexer.new f s) ha' hpad
    (by omega) (by omega)
  exact ⟨ts, lf, hrun, rfl, by omega⟩

/-- Witness for the amended C9 on the input `a`. -/
theorem lex_total_span_amended_witness :
    ∃ ts lf, run 3 (Lexer.new [] ['a']) = RunResult.done ts lf ∧
      (Lexer.new [] ['a']).state.pos = 0 ∧ lf.state.pos = 2 :=
  lex_total_span_amended [] ['a'] (by decide)

/-- Claim C10: a string literal whose contents contain newline characters is
returned with those newlines in the payload while the line counter is
untouched — `get_lino` is the same before and after the call — and the
column is not reset, advancing like any other content character. -/
theorem string_newline_frame (l : Lexer) (cs rest : List Char)
    (hdrop : byteDrop? l.string l.state.pos = some ('"' :: (cs ++ '"' :: rest)))
    (hq : '"' ∉ cs) (hnl : '\n' ∈ cs) :
    ∃ l', Lexer.next l = some (some ⟨l.state.pos, l.state.lino, l.state.charpos,
        TokenValue.String cs⟩, l') ∧
      Lexer.get_lino l' = Lexer.get_lino l ∧
      l'.state.charpos = l.state.charpos + 1 + cs.length :=
  ⟨_, next_string_close l cs rest hdrop hq, rfl, rfl⟩

/-- Witness for C10 on the literal `"a〈newline〉b"`. -/
theorem string_newline_frame_witness :
    ∃ l', Lexer.next (Lexer.new [] ['"', 'a', '\n', 'b', '"']) =
      some (some ⟨0, 1, 0, TokenValue.String ['a', '\n', 'b']⟩, l') ∧
      Lexer.get_lino l' = Lexer.get_lino (Lexer.new [] ['"', 'a', '\n', 'b', '"']) ∧
      l'.state.charpos = 0 + 1 + (['a', '\n', 'b'] : List Char).length :=
  string_newline_frame (Lexer.new [] ['"', 'a', '\n', 'b', '"']) ['a', '\n', 'b'] [' ']
    (by decide) (by decide) (by decide)
